import Mathlib

/-!
# Lineage traversal engine — shallow embedding

This file embeds the lineage traversal engine of the repository
(`src/utils/lineageUtils.js` and `src/utils/columnLineageUtils.js`) into
Lean 4 and proves the specified properties about it.

Modelling conventions:

* JavaScript strings are `String`; string equality `===` is `==`.
* A JS `Set` is a duplicate-free `List String` in insertion order
  (`listInsert` appends the element only when it is not yet present,
  exactly like `Set.add`).
* A JS `Map` built by `set` calls is represented by its lookup function:
  last `set` wins, which is `List.find?` over the reversed insertion
  sequence.  The `portToEdges`/`columnToEdges`/`nodeToEdges` maps, whose
  entries are built with `push` while iterating the relationship list,
  are represented by the function returning the pushed entries in push
  order.
* `null`/`undefined` starting identifiers are `Option.none`; the JS
  falsiness guard `if (!startId)` is `isFalsyId`, true for `none` and
  for the empty string.
* The mutually recursive JS traversal functions use unbounded recursion
  guarded by a `visited` set; the embedding threads the recursion
  through explicit fuel.  The fuel supplied by the top-level entry
  points (`lineageFuel`, `columnFuel`, `nodeLineageFuel`) strictly
  exceeds the number of candidate traversal arguments, and every
  recursive call argument is drawn from that candidate list while the
  visited set grows by one distinct element per recursion level, so the
  fuel can never be exhausted before the visited guard stops the
  recursion: the embedding computes exactly what the JS recursion
  computes.
-/

/-- JS `Set.add`: append the element if it is not already present. -/
def listInsert (l : List String) (x : String) : List String :=
  if x ∈ l then l else l ++ [x]

/-- `new Set(list)`: deduplicate, keeping first occurrences in order. -/
def setOfList (l : List String) : List String :=
  l.foldl listInsert []

/-- `new Set([...a, ...b])`: union of two JS sets, `a`'s elements first. -/
def setUnion (a b : List String) : List String :=
  setOfList (a ++ b)

/-- A port of a data-product node: `{ id, relatedPorts }`

(the display label is irrelevant to the traversal and omitted). -/
structure Port where
  id : String
  relatedPorts : List String
deriving DecidableEq, Repr

/-- `node.data`: the input and output port lists of a node.  A missing
(`undefined`) list behaves exactly like an empty one in the source
(`forEach`/`find` over it do nothing), so both are `[]`. -/
structure NodeData where
  inputs : List Port
  outputs : List Port
deriving DecidableEq, Repr

/-- A data-product node: `{ id, data }`. -/
structure Node where
  id : String
  data : NodeData
deriving DecidableEq, Repr

/-- A relationship record.  `type` is `"direct"` (node→node) or
`"port"` (port→port); each variant reads only its own endpoint fields,
so one record with all four endpoint fields represents both. -/
structure Relationship where
  id : String
  type : String
  sourceNode : String
  sourcePort : String
  targetNode : String
  targetPort : String
deriving DecidableEq, Repr

/-- Value stored in the `portToNode` map: owning node and direction. -/
structure PortInfo where
  nodeId : String
  type : String
deriving DecidableEq, Repr

/-- The `portToNode.set` calls of `buildLineageMaps`, in execution
order: for every node, its inputs (direction `"input"`) then its
outputs (direction `"output"`). -/
def portEntries (nodeList : List Node) : List (String × PortInfo) :=
  nodeList.flatMap fun n =>
    (n.data.inputs.map fun p => (p.id, PortInfo.mk n.id "input")) ++
    (n.data.outputs.map fun p => (p.id, PortInfo.mk n.id "output"))

/-- `maps.portToNode.get portId` — the last `set` for a key wins. -/
def portToNode (nodeList : List Node) (portId : String) : Option PortInfo :=
  ((portEntries nodeList).reverse.find? fun e => e.1 == portId).map fun e => e.2

/-- `maps.nodeData.get nodeId` — the last `set` for a key wins. -/
def nodeDataGet (nodeList : List Node) (nodeId : String) : Option NodeData :=
  (nodeList.reverse.find? fun n => n.id == nodeId).map fun n => n.data

/-- `maps.portToEdges.get portId` (defaulting to `[]`): every
`"port"`-type relationship is pushed under its source port and under
its target port while iterating the relationship list, so the list for
a given port holds those relationships in relationship-list order,
twice when source and target coincide. -/
def portToEdges (rels : List Relationship) (portId : String) : List Relationship :=
  (rels.filter fun r => r.type == "port").flatMap fun r =>
    (if r.sourcePort == portId then [r] else []) ++
    (if r.targetPort == portId then [r] else [])

/-- `findInternalRelatedPorts`: the declared related-port ids of the
port `portId` inside node `nodeId` (searched in inputs first, then
outputs), or `[]` when the node or the port is unknown. -/
def findInternalRelatedPorts (portId nodeId : String) (nodeList : List Node) : List String :=
  match nodeDataGet nodeList nodeId with
  | none => []
  | some data =>
    match (match data.inputs.find? fun p => p.id == portId with
           | some p => some p
           | none => data.outputs.find? fun p => p.id == portId) with
    | some sp => sp.relatedPorts
    | none => []

/-- Mutable state of one `findUpstreamLineage`/`findDownstreamLineage`
call: the `visited` set and the three result sets. -/
structure LinState where
  visited : List String
  nodes : List String
  edges : List String
  ports : List String
deriving DecidableEq, Repr

/-- `{ nodes, edges, ports }` result of a directional traversal. -/
structure LinResult where
  nodes : List String
  edges : List String
  ports : List String
deriving DecidableEq, Repr

/-- `traverseUpstream` of `findUpstreamLineage`: visited guard, record
the port, resolve its owning node (stop when dangling), follow
related ports when it is an output, follow incoming `"port"` edges
(this port as target) when it is an input. -/
def upTraverse (rels : List Relationship) (nodeList : List Node) :
    Nat → String → LinState → LinState
  | 0, _, s => s
  | fuel + 1, p, s =>
    if p ∈ s.visited then s
    else
      let s1 : LinState :=
        { s with visited := listInsert s.visited p, ports := listInsert s.ports p }
      match portToNode nodeList p with
      | none => s1
      | some info =>
        let s2 : LinState := { s1 with nodes := listInsert s1.nodes info.nodeId }
        let s3 : LinState :=
          if info.type == "output" then
            (findInternalRelatedPorts p info.nodeId nodeList).foldl
              (fun st rp =>
                upTraverse rels nodeList fuel rp
                  { st with ports := listInsert st.ports rp }) s2
          else s2
        if info.type == "input" then
          (portToEdges rels p).foldl
            (fun st e =>
              if e.type == "port" && e.targetPort == p then
                upTraverse rels nodeList fuel e.sourcePort
                  { st with edges := listInsert st.edges ("edge-" ++ e.id) }
              else st) s3
        else s3

/-- `traverseDownstream` of `findDownstreamLineage`: the mirror image —
related ports are followed from inputs, outgoing `"port"` edges (this
port as source) from outputs. -/
def downTraverse (rels : List Relationship) (nodeList : List Node) :
    Nat → String → LinState → LinState
  | 0, _, s => s
  | fuel + 1, p, s =>
    if p ∈ s.visited then s
    else
      let s1 : LinState :=
        { s with visited := listInsert s.visited p, ports := listInsert s.ports p }
      match portToNode nodeList p with
      | none => s1
      | some info =>
        let s2 : LinState := { s1 with nodes := listInsert s1.nodes info.nodeId }
        let s3 : LinState :=
          if info.type == "input" then
            (findInternalRelatedPorts p info.nodeId nodeList).foldl
              (fun st rp =>
                downTraverse rels nodeList fuel rp
                  { st with ports := listInsert st.ports rp }) s2
          else s2
        if info.type == "output" then
          (portToEdges rels p).foldl
            (fun st e =>
              if e.type == "port" && e.sourcePort == p then
                downTraverse rels nodeList fuel e.targetPort
                  { st with edges := listInsert st.edges ("edge-" ++ e.id) }
              else st) s3
        else s3

/-- Every string that can ever be an argument of a recursive traversal
call: all declared related-port ids and all endpoint ports of
relationships. -/
def portUniverse (rels : List Relationship) (nodeList : List Node) : List String :=
  (nodeList.flatMap fun n =>
    (n.data.inputs ++ n.data.outputs).flatMap fun pt => pt.relatedPorts) ++
  (rels.flatMap fun r => [r.sourcePort, r.targetPort])

/-- Fuel strictly exceeding the number of candidate recursion
arguments, hence exceeding the depth the JS recursion can reach. -/
def lineageFuel (rels : List Relationship) (nodeList : List Node) : Nat :=
  (portUniverse rels nodeList).length + 1

/-- `findUpstreamLineage(portId, maps)` where `maps` is
`buildLineageMaps(rels, nodeList)`. -/
def findUpstreamLineage (portId : String) (rels : List Relationship)
    (nodeList : List Node) : LinResult :=
  let s := upTraverse rels nodeList (lineageFuel rels nodeList) portId ⟨[], [], [], []⟩
  ⟨s.nodes, s.edges, s.ports⟩

/-- `findDownstreamLineage(portId, maps)` where `maps` is
`buildLineageMaps(rels, nodeList)`. -/
def findDownstreamLineage (portId : String) (rels : List Relationship)
    (nodeList : List Node) : LinResult :=
  let s := downTraverse rels nodeList (lineageFuel rels nodeList) portId ⟨[], [], [], []⟩
  ⟨s.nodes, s.edges, s.ports⟩

/-- `true` exactly on the JS-falsy starting identifiers: `null` /
`undefined` (both `none`) and the empty string. -/
def isFalsyId : Option String → Bool
  | none => true
  | some s => s == ""

/-- Result shape of `findCompleteLineage`. -/
structure CompleteLinResult where
  nodes : List String
  edges : List String
  ports : List String
  upstream : LinResult
  downstream : LinResult
deriving DecidableEq, Repr

/-- The all-empty sentinel returned by `findCompleteLineage` on a falsy
starting id. -/
def emptyCompleteLinResult : CompleteLinResult :=
  ⟨[], [], [], ⟨[], [], []⟩, ⟨[], [], []⟩⟩

/-- `findCompleteLineage(portId, relationships, nodes)`. -/
def findCompleteLineage (portId : Option String) (rels : List Relationship)
    (nodeList : List Node) : CompleteLinResult :=
  if isFalsyId portId then emptyCompleteLinResult
  else
    let p := portId.getD ""
    let upstream := findUpstreamLineage p rels nodeList
    let downstream := findDownstreamLineage p rels nodeList
    ⟨setUnion upstream.nodes downstream.nodes,
     setUnion upstream.edges downstream.edges,
     setUnion upstream.ports downstream.ports,
     upstream, downstream⟩

/-- State of one `findNodeLineage` call. -/
structure NodeLinState where
  visited : List String
  nodes : List String
  edges : List String
deriving DecidableEq, Repr

/-- `{ nodes, edges }` result of `findNodeLineage` (no port set). -/
structure NodeLinResult where
  nodes : List String
  edges : List String
deriving DecidableEq, Repr

/-- `traverse` of `findNodeLineage`: undirected flood fill over
`"direct"` relationships, recursing through both endpoints. -/
def nlTraverse (rels : List Relationship) : Nat → String → NodeLinState → NodeLinState
  | 0, _, s => s
  | fuel + 1, curr, s =>
    if curr ∈ s.visited then s
    else
      rels.foldl
        (fun st r =>
          if r.type == "direct" then
            let st1 : NodeLinState :=
              if r.sourceNode == curr then
                nlTraverse rels fuel r.targetNode
                  { st with edges := listInsert st.edges ("edge-" ++ r.id),
                            nodes := listInsert st.nodes r.targetNode }
              else st
            if r.targetNode == curr then
              nlTraverse rels fuel r.sourceNode
                { st1 with edges := listInsert st1.edges ("edge-" ++ r.id),
                           nodes := listInsert st1.nodes r.sourceNode }
            else st1
          else st)
        { s with visited := listInsert s.visited curr }

/-- Every node id that can be an argument of a recursive
`findNodeLineage` traversal call. -/
def nodeUniverse (rels : List Relationship) : List String :=
  rels.flatMap fun r => [r.sourceNode, r.targetNode]

/-- Fuel strictly exceeding the reachable recursion depth of
`findNodeLineage`. -/
def nodeLineageFuel (nodeId : String) (rels : List Relationship) : Nat :=
  (nodeId :: nodeUniverse rels).length + 1

/-- `findNodeLineage(nodeId, relationships, nodes)` — the JS function
receives the node list but never reads it. -/
def findNodeLineage (nodeId : Option String) (rels : List Relationship)
    (_nodeList : List Node) : NodeLinResult :=
  if isFalsyId nodeId then ⟨[], []⟩
  else
    let start := nodeId.getD ""
    let s := nlTraverse rels (nodeLineageFuel start rels) start ⟨[], [start], []⟩
    ⟨s.nodes, s.edges⟩

/-- A column record; only its identifier matters to the traversal. -/
structure Column where
  id : String
deriving DecidableEq, Repr

/-- A port as supplied to the column-lineage engine. -/
structure ColumnPort where
  portId : String
  portLabel : String
  nodeId : String
  nodeLabel : String
  columns : List Column
deriving DecidableEq, Repr

/-- The `allPorts` argument: selected port (possibly null) plus
upstream and downstream port lists. -/
structure AllPorts where
  selectedPort : Option ColumnPort
  upstreamPorts : List ColumnPort
  downstreamPorts : List ColumnPort
deriving DecidableEq, Repr

/-- A column-to-column relationship (no identifier of its own). -/
structure ColumnRelationship where
  sourceColumn : String
  targetColumn : String
deriving DecidableEq, Repr

/-- An entry of the `columnToEdges` map: a column relationship with the
synthesized positional edge id. -/
structure ColEdge where
  id : String
  sourceColumn : String
  targetColumn : String
deriving DecidableEq, Repr

/-- `[allPorts.selectedPort, ...upstreamPorts, ...downstreamPorts].filter(Boolean)`. -/
def allPortsList (ap : AllPorts) : List ColumnPort :=
  (match ap.selectedPort with | none => [] | some p => [p]) ++
  ap.upstreamPorts ++ ap.downstreamPorts

/-- Value stored in the `columnToPort` map. -/
structure ColPortInfo where
  portId : String
  portLabel : String
  nodeId : String
  nodeLabel : String
deriving DecidableEq, Repr

/-- The `columnToPort.set` calls of `buildColumnLineageMaps`, in
execution order. -/
def columnEntries (ap : AllPorts) : List (String × ColPortInfo) :=
  (allPortsList ap).flatMap fun port =>
    port.columns.map fun c =>
      (c.id, ColPortInfo.mk port.portId port.portLabel port.nodeId port.nodeLabel)

/-- `maps.columnToPort.get columnId` — the last `set` for a key wins. -/
def columnToPort (ap : AllPorts) (columnId : String) : Option ColPortInfo :=
  ((columnEntries ap).reverse.find? fun e => e.1 == columnId).map fun e => e.2

/-- The synthesized edge records `{ id: col-edge-index, ...rel }`, in
relationship-list order, indices counting from `i`. -/
def colEdgesAux (i : Nat) : List ColumnRelationship → List ColEdge
  | [] => []
  | r :: rs =>
    ColEdge.mk ("col-edge-" ++ toString i) r.sourceColumn r.targetColumn ::
      colEdgesAux (i + 1) rs

/-- `maps.columnToEdges.get columnId` (defaulting to `[]`): each edge
record is pushed under its source column and its target column. -/
def columnToEdges (colRels : List ColumnRelationship) (columnId : String) : List ColEdge :=
  (colEdgesAux 0 colRels).flatMap fun e =>
    (if e.sourceColumn == columnId then [e] else []) ++
    (if e.targetColumn == columnId then [e] else [])

/-- State of one column-lineage traversal call. -/
structure ColState where
  visited : List String
  columns : List String
  edges : List String
  ports : List String
deriving DecidableEq, Repr

/-- `{ columns, edges, ports }` result of a column traversal. -/
structure ColResult where
  columns : List String
  edges : List String
  ports : List String
deriving DecidableEq, Repr

/-- `traverseUpstream` of `findUpstreamColumnLineage`: record the
column and its owning port (when known), follow edges where this
column is the target. -/
def colUpTraverse (colRels : List ColumnRelationship) (ap : AllPorts) :
    Nat → String → ColState → ColState
  | 0, _, s => s
  | fuel + 1, c, s =>
    if c ∈ s.visited then s
    else
      let s1 : ColState :=
        { s with visited := listInsert s.visited c, columns := listInsert s.columns c }
      let s2 : ColState :=
        match columnToPort ap c with
        | none => s1
        | some info => { s1 with ports := listInsert s1.ports info.portId }
      (columnToEdges colRels c).foldl
        (fun st e =>
          if e.targetColumn == c then
            colUpTraverse colRels ap fuel e.sourceColumn
              { st with edges := listInsert st.edges e.id }
          else st) s2

/-- `traverseDownstream` of `findDownstreamColumnLineage`: follow edges
where this column is the source. -/
def colDownTraverse (colRels : List ColumnRelationship) (ap : AllPorts) :
    Nat → String → ColState → ColState
  | 0, _, s => s
  | fuel + 1, c, s =>
    if c ∈ s.visited then s
    else
      let s1 : ColState :=
        { s with visited := listInsert s.visited c, columns := listInsert s.columns c }
      let s2 : ColState :=
        match columnToPort ap c with
        | none => s1
        | some info => { s1 with ports := listInsert s1.ports info.portId }
      (columnToEdges colRels c).foldl
        (fun st e =>
          if e.sourceColumn == c then
            colDownTraverse colRels ap fuel e.targetColumn
              { st with edges := listInsert st.edges e.id }
          else st) s2

/-- Every string that can be an argument of a recursive column
traversal call. -/
def columnUniverse (colRels : List ColumnRelationship) : List String :=
  colRels.flatMap fun r => [r.sourceColumn, r.targetColumn]

/-- Fuel strictly exceeding the reachable column recursion depth. -/
def columnFuel (colRels : List ColumnRelationship) : Nat :=
  (columnUniverse colRels).length + 1

/-- `findUpstreamColumnLineage(columnId, maps)` where `maps` is
`buildColumnLineageMaps(colRels, allPorts)`. -/
def findUpstreamColumnLineage (columnId : String) (colRels : List ColumnRelationship)
    (ap : AllPorts) : ColResult :=
  let s := colUpTraverse colRels ap (columnFuel colRels) columnId ⟨[], [], [], []⟩
  ⟨s.columns, s.edges, s.ports⟩

/-- `findDownstreamColumnLineage(columnId, maps)` where `maps` is
`buildColumnLineageMaps(colRels, allPorts)`. -/
def findDownstreamColumnLineage (columnId : String) (colRels : List ColumnRelationship)
    (ap : AllPorts) : ColResult :=
  let s := colDownTraverse colRels ap (columnFuel colRels) columnId ⟨[], [], [], []⟩
  ⟨s.columns, s.edges, s.ports⟩

/-- Result shape of `findCompleteColumnLineage`. -/
structure CompleteColResult where
  columns : List String
  edges : List String
  ports : List String
  upstream : ColResult
  downstream : ColResult
deriving DecidableEq, Repr

/-- The all-empty sentinel returned by `findCompleteColumnLineage` on a
falsy starting id. -/
def emptyCompleteColResult : CompleteColResult :=
  ⟨[], [], [], ⟨[], [], []⟩, ⟨[], [], []⟩⟩

/-- `findCompleteColumnLineage(columnId, columnRelationships, allPorts)`. -/
def findCompleteColumnLineage (columnId : Option String)
    (colRels : List ColumnRelationship) (ap : AllPorts) : CompleteColResult :=
  if isFalsyId columnId then emptyCompleteColResult
  else
    let c := columnId.getD ""
    let upstream := findUpstreamColumnLineage c colRels ap
    let downstream := findDownstreamColumnLineage c colRels ap
    ⟨setUnion upstream.columns downstream.columns,
     setUnion upstream.edges downstream.edges,
     setUnion upstream.ports downstream.ports,
     upstream, downstream⟩

/-! ## Basic lemmas about the JS-set representation -/

theorem mem_listInsert {l : List String} {a x : String} :
    x ∈ listInsert l a ↔ x ∈ l ∨ x = a := by
  unfold listInsert
  by_cases h : a ∈ l
  · simp only [h, if_true]
    constructor
    · exact Or.inl
    · rintro (hx | rfl)
      · exact hx
      · exact h
  · simp [h]

theorem self_mem_listInsert (l : List String) (a : String) : a ∈ listInsert l a :=
  mem_listInsert.mpr (Or.inr rfl)

theorem subset_listInsert (l : List String) (a : String) : l ⊆ listInsert l a :=
  fun _ hx => mem_listInsert.mpr (Or.inl hx)

theorem nodup_listInsert {l : List String} (a : String) (h : l.Nodup) :
    (listInsert l a).Nodup := by
  unfold listInsert
  by_cases ha : a ∈ l <;> simp [ha, List.nodup_append, h]

theorem mem_foldl_listInsert {l : List String} :
    ∀ {acc x}, x ∈ l.foldl listInsert acc ↔ x ∈ acc ∨ x ∈ l := by
  induction l with
  | nil => simp
  | cons a l ih =>
    intro acc x
    simp only [List.foldl_cons, ih, mem_listInsert, List.mem_cons]
    tauto

theorem mem_setOfList {l : List String} {x : String} :
    x ∈ setOfList l ↔ x ∈ l := by
  unfold setOfList; simp [mem_foldl_listInsert]

theorem mem_setUnion {a b : List String} {x : String} :
    x ∈ setUnion a b ↔ x ∈ a ∨ x ∈ b := by
  unfold setUnion; simp [mem_setOfList]

/-! ## Generic lemmas about `foldl` of state-transforming steps -/

theorem foldl_rel {α σ : Type} {R : σ → σ → Prop}
    (hrefl : ∀ s, R s s) (htrans : ∀ {a b c}, R a b → R b c → R a c)
    {f : σ → α → σ} :
    ∀ {l : List α}, (∀ s a, a ∈ l → R s (f s a)) → ∀ s, R s (l.foldl f s) := by
  intro l
  induction l with
  | nil => intro _ s; simpa using hrefl s
  | cons a l ih =>
    intro h s
    simp only [List.foldl_cons]
    exact htrans (h s a (by simp))
      (ih (fun s b hb => h s b (by simp [hb])) (f s a))

theorem foldl_pres {α σ : Type} {P : σ → Prop} {f : σ → α → σ} :
    ∀ {l : List α}, (∀ s a, a ∈ l → P s → P (f s a)) → ∀ s, P s → P (l.foldl f s) := by
  intro l
  induction l with
  | nil => intro _ s hs; simpa using hs
  | cons a l ih =>
    intro h s hs
    simp only [List.foldl_cons]
    exact ih (fun s b hb => h s b (by simp [hb])) (f s a) (h s a (by simp) hs)

/-! ## Growth (monotonicity) of the traversal state -/

/-- The traversal state only ever grows: every field of `s` is a subset
of the corresponding field of `t`. -/
def LinLE (s t : LinState) : Prop :=
  s.visited ⊆ t.visited ∧ s.nodes ⊆ t.nodes ∧ s.edges ⊆ t.edges ∧ s.ports ⊆ t.ports

theorem linLE_refl {s : LinState} : LinLE s s :=
  ⟨fun _ h => h, fun _ h => h, fun _ h => h, fun _ h => h⟩

theorem linLE_trans {a b c : LinState} (h1 : LinLE a b) (h2 : LinLE b c) : LinLE a c :=
  ⟨fun _ h => h2.1 (h1.1 h), fun _ h => h2.2.1 (h1.2.1 h),
   fun _ h => h2.2.2.1 (h1.2.2.1 h), fun _ h => h2.2.2.2 (h1.2.2.2 h)⟩

theorem upTraverse_linLE (rels : List Relationship) (nodeList : List Node) :
    ∀ (fuel : Nat) (p : String) (s : LinState),
      LinLE s (upTraverse rels nodeList fuel p s) := by
  intro fuel
  induction fuel with
  | zero => intro p s; exact linLE_refl
  | succ fuel ih =>
    intro p s
    rw [upTraverse]
    by_cases hp : p ∈ s.visited
    · simp only [hp, if_true]; exact linLE_refl
    · simp only [hp, if_false]
      have h1 : LinLE s
          { s with visited := listInsert s.visited p, ports := listInsert s.ports p } :=
        ⟨subset_listInsert _ _, (fun _ h => h), (fun _ h => h), subset_listInsert _ _⟩
      rcases hpn : portToNode nodeList p with _ | info
      · exact h1
      · have h2 : LinLE s
            { s with visited := listInsert s.visited p, ports := listInsert s.ports p,
                     nodes := listInsert s.nodes info.nodeId } :=
          ⟨subset_listInsert _ _, subset_listInsert _ _, (fun _ h => h), subset_listInsert _ _⟩
        refine linLE_trans h2 ?_
        refine linLE_trans
          (b := if info.type == "output" then
              (findInternalRelatedPorts p info.nodeId nodeList).foldl
                (fun st rp =>
                  upTraverse rels nodeList fuel rp
                    { st with ports := listInsert st.ports rp })
                { s with visited := listInsert s.visited p, ports := listInsert s.ports p,
                         nodes := listInsert s.nodes info.nodeId }
            else
              { s with visited := listInsert s.visited p, ports := listInsert s.ports p,
                       nodes := listInsert s.nodes info.nodeId }) ?_ ?_
        · by_cases ho : (info.type == "output") = true
          · simp only [ho, if_true]
            refine foldl_rel (fun s => linLE_refl) (fun h1 h2 => linLE_trans h1 h2) ?_ _
            intro st rp _
            exact linLE_trans (b := { st with ports := listInsert st.ports rp })
              ⟨(fun _ h => h), (fun _ h => h), (fun _ h => h), subset_listInsert _ _⟩ (ih _ _)
          · simp only [ho, if_false]; exact linLE_refl
        · by_cases hi : (info.type == "input") = true
          · simp only [hi, if_true]
            refine foldl_rel (fun s => linLE_refl) (fun h1 h2 => linLE_trans h1 h2) ?_ _
            intro st e _
            by_cases hc : (e.type == "port" && e.targetPort == p) = true
            · simp only [hc, if_true]
              exact linLE_trans
                (b := { st with edges := listInsert st.edges ("edge-" ++ e.id) })
                ⟨(fun _ h => h), (fun _ h => h), subset_listInsert _ _, (fun _ h => h)⟩ (ih _ _)
            · simp only [hc, if_false]; exact linLE_refl
          · simp only [hi, if_false]; exact linLE_refl

theorem downTraverse_linLE (rels : List Relationship) (nodeList : List Node) :
    ∀ (fuel : Nat) (p : String) (s : LinState),
      LinLE s (downTraverse rels nodeList fuel p s) := by
  intro fuel
  induction fuel with
  | zero => intro p s; exact linLE_refl
  | succ fuel ih =>
    intro p s
    rw [downTraverse]
    by_cases hp : p ∈ s.visited
    · simp only [hp, if_true]; exact linLE_refl
    · simp only [hp, if_false]
      have h1 : LinLE s
          { s with visited := listInsert s.visited p, ports := listInsert s.ports p } :=
        ⟨subset_listInsert _ _, (fun _ h => h), (fun _ h => h), subset_listInsert _ _⟩
      rcases hpn : portToNode nodeList p with _ | info
      · exact h1
      · have h2 : LinLE s
            { s with visited := listInsert s.visited p, ports := listInsert s.ports p,
                     nodes := listInsert s.nodes info.nodeId } :=
          ⟨subset_listInsert _ _, subset_listInsert _ _, (fun _ h => h), subset_listInsert _ _⟩
        refine linLE_trans h2 ?_
        refine linLE_trans
          (b := if info.type == "input" then
              (findInternalRelatedPorts p info.nodeId nodeList).foldl
                (fun st rp =>
                  downTraverse rels nodeList fuel rp
                    { st with ports := listInsert st.ports rp })
                { s with visited := listInsert s.visited p, ports := listInsert s.ports p,
                         nodes := listInsert s.nodes info.nodeId }
            else
              { s with visited := listInsert s.visited p, ports := listInsert s.ports p,
                       nodes := listInsert s.nodes info.nodeId }) ?_ ?_
        · by_cases hi : (info.type == "input") = true
          · simp only [hi, if_true]
            refine foldl_rel (fun s => linLE_refl) (fun h1 h2 => linLE_trans h1 h2) ?_ _
            intro st rp _
            exact linLE_trans (b := { st with ports := listInsert st.ports rp })
              ⟨(fun _ h => h), (fun _ h => h), (fun _ h => h), subset_listInsert _ _⟩ (ih _ _)
          · simp only [hi, if_false]; exact linLE_refl
        · by_cases ho : (info.type == "output") = true
          · simp only [ho, if_true]
            refine foldl_rel (fun s => linLE_refl) (fun h1 h2 => linLE_trans h1 h2) ?_ _
            intro st e _
            by_cases hc : (e.type == "port" && e.sourcePort == p) = true
            · simp only [hc, if_true]
              exact linLE_trans
                (b := { st with edges := listInsert st.edges ("edge-" ++ e.id) })
                ⟨(fun _ h => h), (fun _ h => h), subset_listInsert _ _, (fun _ h => h)⟩ (ih _ _)
            · simp only [hc, if_false]; exact linLE_refl
          · simp only [ho, if_false]; exact linLE_refl

theorem upTraverse_body_le (rels : List Relationship) (nodeList : List Node) :
    ∀ (fuel : Nat) (p : String) (s : LinState), p ∉ s.visited →
      LinLE { s with visited := listInsert s.visited p, ports := listInsert s.ports p }
        (upTraverse rels nodeList (fuel + 1) p s) := by
  intro fuel p s hp
  rw [upTraverse]
  simp only [hp, if_false]
  rcases hpn : portToNode nodeList p with _ | info
  · exact linLE_refl
  · refine linLE_trans
      (b := { s with visited := listInsert s.visited p, ports := listInsert s.ports p,
                     nodes := listInsert s.nodes info.nodeId })
      ⟨(fun _ h => h), subset_listInsert _ _, (fun _ h => h), (fun _ h => h)⟩ ?_
    refine linLE_trans
      (b := if info.type == "output" then
          (findInternalRelatedPorts p info.nodeId nodeList).foldl
            (fun st rp =>
              upTraverse rels nodeList fuel rp
                { st with ports := listInsert st.ports rp })
            { s with visited := listInsert s.visited p, ports := listInsert s.ports p,
                     nodes := listInsert s.nodes info.nodeId }
        else
          { s with visited := listInsert s.visited p, ports := listInsert s.ports p,
                   nodes := listInsert s.nodes info.nodeId }) ?_ ?_
    · by_cases ho : (info.type == "output") = true
      · simp only [ho, if_true]
        refine foldl_rel (fun s => linLE_refl) (fun h1 h2 => linLE_trans h1 h2) ?_ _
        intro st rp _
        exact linLE_trans (b := { st with ports := listInsert st.ports rp })
          ⟨(fun _ h => h), (fun _ h => h), (fun _ h => h), subset_listInsert _ _⟩
          (upTraverse_linLE rels nodeList fuel _ _)
      · simp only [ho, if_false]; exact linLE_refl
    · by_cases hi : (info.type == "input") = true
      · simp only [hi, if_true]
        refine foldl_rel (fun s => linLE_refl) (fun h1 h2 => linLE_trans h1 h2) ?_ _
        intro st e _
        by_cases hc : (e.type == "port" && e.targetPort == p) = true
        · simp only [hc, if_true]
          exact linLE_trans
            (b := { st with edges := listInsert st.edges ("edge-" ++ e.id) })
            ⟨(fun _ h => h), (fun _ h => h), subset_listInsert _ _, (fun _ h => h)⟩
            (upTraverse_linLE rels nodeList fuel _ _)
        · simp only [hc, if_false]; exact linLE_refl
      · simp only [hi, if_false]; exact linLE_refl

theorem downTraverse_body_le (rels : List Relationship) (nodeList : List Node) :
    ∀ (fuel : Nat) (p : String) (s : LinState), p ∉ s.visited →
      LinLE { s with visited := listInsert s.visited p, ports := listInsert s.ports p }
        (downTraverse rels nodeList (fuel + 1) p s) := by
  intro fuel p s hp
  rw [downTraverse]
  simp only [hp, if_false]
  rcases hpn : portToNode nodeList p with _ | info
  · exact linLE_refl
  · refine linLE_trans
      (b := { s with visited := listInsert s.visited p, ports := listInsert s.ports p,
                     nodes := listInsert s.nodes info.nodeId })
      ⟨(fun _ h => h), subset_listInsert _ _, (fun _ h => h), (fun _ h => h)⟩ ?_
    refine linLE_trans
      (b := if info.type == "input" then
          (findInternalRelatedPorts p info.nodeId nodeList).foldl
            (fun st rp =>
              downTraverse rels nodeList fuel rp
                { st with ports := listInsert st.ports rp })
            { s with visited := listInsert s.visited p, ports := listInsert s.ports p,
                     nodes := listInsert s.nodes info.nodeId }
        else
          { s with visited := listInsert s.visited p, ports := listInsert s.ports p,
                   nodes := listInsert s.nodes info.nodeId }) ?_ ?_
    · by_cases hi : (info.type == "input") = true
      · simp only [hi, if_true]
        refine foldl_rel (fun s => linLE_refl) (fun h1 h2 => linLE_trans h1 h2) ?_ _
        intro st rp _
        exact linLE_trans (b := { st with ports := listInsert st.ports rp })
          ⟨(fun _ h => h), (fun _ h => h), (fun _ h => h), subset_listInsert _ _⟩
          (downTraverse_linLE rels nodeList fuel _ _)
      · simp only [hi, if_false]; exact linLE_refl
    · by_cases ho : (info.type == "output") = true
      · simp only [ho, if_true]
        refine foldl_rel (fun s => linLE_refl) (fun h1 h2 => linLE_trans h1 h2) ?_ _
        intro st e _
        by_cases hc : (e.type == "port" && e.sourcePort == p) = true
        · simp only [hc, if_true]
          exact linLE_trans
            (b := { st with edges := listInsert st.edges ("edge-" ++ e.id) })
            ⟨(fun _ h => h), (fun _ h => h), subset_listInsert _ _, (fun _ h => h)⟩
            (downTraverse_linLE rels nodeList fuel _ _)
        · simp only [hc, if_false]; exact linLE_refl
      · simp only [ho, if_false]; exact linLE_refl

theorem upTraverse_mem_ports (rels : List Relationship) (nodeList : List Node)
    (fuel : Nat) (p : String) (s : LinState) (hs : s.visited ⊆ s.ports) :
    p ∈ (upTraverse rels nodeList (fuel + 1) p s).ports := by
  by_cases hp : p ∈ s.visited
  · rw [upTraverse]
    simp only [hp, if_true]
    exact hs hp
  · exact (upTraverse_body_le rels nodeList fuel p s hp).2.2.2
      (self_mem_listInsert s.ports p)

theorem downTraverse_mem_ports (rels : List Relationship) (nodeList : List Node)
    (fuel : Nat) (p : String) (s : LinState) (hs : s.visited ⊆ s.ports) :
    p ∈ (downTraverse rels nodeList (fuel + 1) p s).ports := by
  by_cases hp : p ∈ s.visited
  · rw [downTraverse]
    simp only [hp, if_true]
    exact hs hp
  · exact (downTraverse_body_le rels nodeList fuel p s hp).2.2.2
      (self_mem_listInsert s.ports p)

theorem upTraverse_vp (rels : List Relationship) (nodeList : List Node) :
    ∀ (fuel : Nat) (p : String) (s : LinState), s.visited ⊆ s.ports →
      (upTraverse rels nodeList fuel p s).visited ⊆ (upTraverse rels nodeList fuel p s).ports := by
  intro fuel
  induction fuel with
  | zero => intro p s hs; exact hs
  | succ fuel ih =>
    intro p s hs
    rw [upTraverse]
    by_cases hp : p ∈ s.visited
    · simp only [hp, if_true]; exact hs
    · simp only [hp, if_false]
      have hs1 : ∀ x ∈ listInsert s.visited p, x ∈ listInsert s.ports p := by
        intro x hx
        rcases mem_listInsert.mp hx with hx | rfl
        · exact subset_listInsert _ _ (hs hx)
        · exact self_mem_listInsert _ _
      rcases hpn : portToNode nodeList p with _ | info
      · exact hs1
      · have hrel : ∀ t : LinState, t.visited ⊆ t.ports →
            ((findInternalRelatedPorts p info.nodeId nodeList).foldl
              (fun st rp =>
                upTraverse rels nodeList fuel rp
                  { st with ports := listInsert st.ports rp }) t).visited ⊆
            ((findInternalRelatedPorts p info.nodeId nodeList).foldl
              (fun st rp =>
                upTraverse rels nodeList fuel rp
                  { st with ports := listInsert st.ports rp }) t).ports := by
          intro t ht
          refine foldl_pres (P := fun st : LinState => st.visited ⊆ st.ports) ?_ t ht
          intro st rp _ hst
          exact ih _ _ (fun x hx => subset_listInsert _ _ (hst hx))
        have hedge : ∀ t : LinState, t.visited ⊆ t.ports →
            ((portToEdges rels p).foldl
              (fun st e =>
                if e.type == "port" && e.targetPort == p then
                  upTraverse rels nodeList fuel e.sourcePort
                    { st with edges := listInsert st.edges ("edge-" ++ e.id) }
                else st) t).visited ⊆
            ((portToEdges rels p).foldl
              (fun st e =>
                if e.type == "port" && e.targetPort == p then
                  upTraverse rels nodeList fuel e.sourcePort
                    { st with edges := listInsert st.edges ("edge-" ++ e.id) }
                else st) t).ports := by
          intro t ht
          refine foldl_pres (P := fun st : LinState => st.visited ⊆ st.ports) ?_ t ht
          intro st e _ hst
          by_cases hc : (e.type == "port" && e.targetPort == p) = true
          · simp only [hc, if_true]; exact ih _ _ hst
          · simp only [hc, if_false]; exact hst
        by_cases ho : (info.type == "output") = true <;>
          by_cases hi : (info.type == "input") = true <;>
            simp only [ho, hi, if_true, if_false]
        · exact hedge _ (hrel _ hs1)
        · exact hrel _ hs1
        · exact hedge _ hs1
        · exact hs1

theorem downTraverse_vp (rels : List Relationship) (nodeList : List Node) :
    ∀ (fuel : Nat) (p : String) (s : LinState), s.visited ⊆ s.ports →
      (downTraverse rels nodeList fuel p s).visited ⊆
        (downTraverse rels nodeList fuel p s).ports := by
  intro fuel
  induction fuel with
  | zero => intro p s hs; exact hs
  | succ fuel ih =>
    intro p s hs
    rw [downTraverse]
    by_cases hp : p ∈ s.visited
    · simp only [hp, if_true]; exact hs
    · simp only [hp, if_false]
      have hs1 : ∀ x ∈ listInsert s.visited p, x ∈ listInsert s.ports p := by
        intro x hx
        rcases mem_listInsert.mp hx with hx | rfl
        · exact subset_listInsert _ _ (hs hx)
        · exact self_mem_listInsert _ _
      rcases hpn : portToNode nodeList p with _ | info
      · exact hs1
      · have hrel : ∀ t : LinState, t.visited ⊆ t.ports →
            ((findInternalRelatedPorts p info.nodeId nodeList).foldl
              (fun st rp =>
                downTraverse rels nodeList fuel rp
                  { st with ports := listInsert st.ports rp }) t).visited ⊆
            ((findInternalRelatedPorts p info.nodeId nodeList).foldl
              (fun st rp =>
                downTraverse rels nodeList fuel rp
                  { st with ports := listInsert st.ports rp }) t).ports := by
          intro t ht
          refine foldl_pres (P := fun st : LinState => st.visited ⊆ st.ports) ?_ t ht
          intro st rp _ hst
          exact ih _ _ (fun x hx => subset_listInsert _ _ (hst hx))
        have hedge : ∀ t : LinState, t.visited ⊆ t.ports →
            ((portToEdges rels p).foldl
              (fun st e =>
                if e.type == "port" && e.sourcePort == p then
                  downTraverse rels nodeList fuel e.targetPort
                    { st with edges := listInsert st.edges ("edge-" ++ e.id) }
                else st) t).visited ⊆
            ((portToEdges rels p).foldl
              (fun st e =>
                if e.type == "port" && e.sourcePort == p then
                  downTraverse rels nodeList fuel e.targetPort
                    { st with edges := listInsert st.edges ("edge-" ++ e.id) }
                else st) t).ports := by
          intro t ht
          refine foldl_pres (P := fun st : LinState => st.visited ⊆ st.ports) ?_ t ht
          intro st e _ hst
          by_cases hc : (e.type == "port" && e.sourcePort == p) = true
          · simp only [hc, if_true]; exact ih _ _ hst
          · simp only [hc, if_false]; exact hst
        by_cases hi : (info.type == "input") = true <;>
          by_cases ho : (info.type == "output") = true <;>
            simp only [ho, hi, if_true, if_false]
        · exact hedge _ (hrel _ hs1)
        · exact hrel _ hs1
        · exact hedge _ hs1
        · exact hs1

/-- Growth order on column-traversal states. -/
def ColLE (s t : ColState) : Prop :=
  s.visited ⊆ t.visited ∧ s.columns ⊆ t.columns ∧ s.edges ⊆ t.edges ∧ s.ports ⊆ t.ports

theorem colLE_refl {s : ColState} : ColLE s s :=
  ⟨fun _ h => h, fun _ h => h, fun _ h => h, fun _ h => h⟩

theorem colLE_trans {a b c : ColState} (h1 : ColLE a b) (h2 : ColLE b c) : ColLE a c :=
  ⟨fun _ h => h2.1 (h1.1 h), fun _ h => h2.2.1 (h1.2.1 h),
   fun _ h => h2.2.2.1 (h1.2.2.1 h), fun _ h => h2.2.2.2 (h1.2.2.2 h)⟩

theorem colUpTraverse_colLE (colRels : List ColumnRelationship) (ap : AllPorts) :
    ∀ (fuel : Nat) (c : String) (s : ColState),
      ColLE s (colUpTraverse colRels ap fuel c s) := by
  intro fuel
  induction fuel with
  | zero => intro c s; exact colLE_refl
  | succ fuel ih =>
    intro c s
    rw [colUpTraverse]
    by_cases hc : c ∈ s.visited
    · simp only [hc, if_true]; exact colLE_refl
    · simp only [hc, if_false]
      have h1 : ColLE s
          { s with visited := listInsert s.visited c, columns := listInsert s.columns c } :=
        ⟨subset_listInsert _ _, subset_listInsert _ _, (fun _ h => h), (fun _ h => h)⟩
      have h2 : ∀ t : ColState, ColLE t
          ((columnToEdges colRels c).foldl
            (fun st e =>
              if e.targetColumn == c then
                colUpTraverse colRels ap fuel e.sourceColumn
                  { st with edges := listInsert st.edges e.id }
              else st) t) := by
        intro t
        refine foldl_rel (fun s => colLE_refl) (fun h1 h2 => colLE_trans h1 h2) ?_ _
        intro st e _
        by_cases he : (e.targetColumn == c) = true
        · simp only [he, if_true]
          exact colLE_trans (b := { st with edges := listInsert st.edges e.id })
            ⟨(fun _ h => h), (fun _ h => h), subset_listInsert _ _, (fun _ h => h)⟩ (ih _ _)
        · simp only [he, if_false]; exact colLE_refl
      rcases hcp : columnToPort ap c with _ | info
      · exact colLE_trans h1 (h2 _)
      · refine colLE_trans (colLE_trans h1 ?_) (h2 _)
        exact ⟨(fun _ h => h), (fun _ h => h), (fun _ h => h), subset_listInsert _ _⟩

theorem colDownTraverse_colLE (colRels : List ColumnRelationship) (ap : AllPorts) :
    ∀ (fuel : Nat) (c : String) (s : ColState),
      ColLE s (colDownTraverse colRels ap fuel c s) := by
  intro fuel
  induction fuel with
  | zero => intro c s; exact colLE_refl
  | succ fuel ih =>
    intro c s
    rw [colDownTraverse]
    by_cases hc : c ∈ s.visited
    · simp only [hc, if_true]; exact colLE_refl
    · simp only [hc, if_false]
      have h1 : ColLE s
          { s with visited := listInsert s.visited c, columns := listInsert s.columns c } :=
        ⟨subset_listInsert _ _, subset_listInsert _ _, (fun _ h => h), (fun _ h => h)⟩
      have h2 : ∀ t : ColState, ColLE t
          ((columnToEdges colRels c).foldl
            (fun st e =>
              if e.sourceColumn == c then
                colDownTraverse colRels ap fuel e.targetColumn
                  { st with edges := listInsert st.edges e.id }
              else st) t) := by
        intro t
        refine foldl_rel (fun s => colLE_refl) (fun h1 h2 => colLE_trans h1 h2) ?_ _
        intro st e _
        by_cases he : (e.sourceColumn == c) = true
        · simp only [he, if_true]
          exact colLE_trans (b := { st with edges := listInsert st.edges e.id })
            ⟨(fun _ h => h), (fun _ h => h), subset_listInsert _ _, (fun _ h => h)⟩ (ih _ _)
        · simp only [he, if_false]; exact colLE_refl
      rcases hcp : columnToPort ap c with _ | info
      · exact colLE_trans h1 (h2 _)
      · refine colLE_trans (colLE_trans h1 ?_) (h2 _)
        exact ⟨(fun _ h => h), (fun _ h => h), (fun _ h => h), subset_listInsert _ _⟩

theorem colUpTraverse_mem_columns (colRels : List ColumnRelationship) (ap : AllPorts)
    (fuel : Nat) (c : String) (s : ColState) (hs : s.visited ⊆ s.columns) :
    c ∈ (colUpTraverse colRels ap (fuel + 1) c s).columns := by
  by_cases hc : c ∈ s.visited
  · rw [colUpTraverse]
    simp only [hc, if_true]
    exact hs hc
  · rw [colUpTraverse]
    simp only [hc, if_false]
    have h1 : c ∈ (listInsert s.columns c) := self_mem_listInsert _ _
    have h2 : ∀ t : ColState, c ∈ t.columns →
        c ∈ ((columnToEdges colRels c).foldl
          (fun st e =>
            if e.targetColumn == c then
              colUpTraverse colRels ap fuel e.sourceColumn
                { st with edges := listInsert st.edges e.id }
            else st) t).columns := by
      intro t ht
      refine foldl_pres (P := fun st : ColState => c ∈ st.columns) ?_ t ht
      intro st e _ hst
      by_cases he : (e.targetColumn == c) = true
      · simp only [he, if_true]
        exact (colUpTraverse_colLE colRels ap fuel _ _).2.1 hst
      · simp only [he, if_false]; exact hst
    rcases hcp : columnToPort ap c with _ | info
    · exact h2 _ h1
    · exact h2 _ h1

theorem colDownTraverse_mem_columns (colRels : List ColumnRelationship) (ap : AllPorts)
    (fuel : Nat) (c : String) (s : ColState) (hs : s.visited ⊆ s.columns) :
    c ∈ (colDownTraverse colRels ap (fuel + 1) c s).columns := by
  by_cases hc : c ∈ s.visited
  · rw [colDownTraverse]
    simp only [hc, if_true]
    exact hs hc
  · rw [colDownTraverse]
    simp only [hc, if_false]
    have h1 : c ∈ (listInsert s.columns c) := self_mem_listInsert _ _
    have h2 : ∀ t : ColState, c ∈ t.columns →
        c ∈ ((columnToEdges colRels c).foldl
          (fun st e =>
            if e.sourceColumn == c then
              colDownTraverse colRels ap fuel e.targetColumn
                { st with edges := listInsert st.edges e.id }
            else st) t).columns := by
      intro t ht
      refine foldl_pres (P := fun st : ColState => c ∈ st.columns) ?_ t ht
      intro st e _ hst
      by_cases he : (e.sourceColumn == c) = true
      · simp only [he, if_true]
        exact (colDownTraverse_colLE colRels ap fuel _ _).2.1 hst
      · simp only [he, if_false]; exact hst
    rcases hcp : columnToPort ap c with _ | info
    · exact h2 _ h1
    · exact h2 _ h1

/-! ## Claim C6 — null/undefined deselection sentinel -/

/-- Claim C6: for a null or undefined starting id (modelled as `none`)
and any relationship and node lists, `findCompleteLineage` returns the
all-empty sentinel (empty nodes, edges and ports, and all-empty
upstream and downstream sub-results) without failing, and
`findCompleteColumnLineage` and `findNodeLineage` behave the same
way. -/
theorem findCompleteLineage_none_sentinel :
    ∀ (rels : List Relationship) (nodeList : List Node)
      (colRels : List ColumnRelationship) (ap : AllPorts)
      (rels2 : List Relationship) (nodeList2 : List Node),
      findCompleteLineage none rels nodeList = emptyCompleteLinResult ∧
      findCompleteColumnLineage none colRels ap = emptyCompleteColResult ∧
      findNodeLineage none rels2 nodeList2 = NodeLinResult.mk [] [] := by
  intro rels nodeList colRels ap rels2 nodeList2
  exact ⟨rfl, rfl, rfl⟩

/-! ## Claim C10 — empty string treated as deselection -/

/-- Claim C10: the empty string starting id is treated exactly like
null/undefined deselection — the guard tests JS falsiness — so
`findCompleteLineage`, `findCompleteColumnLineage` and
`findNodeLineage` all return the all-empty sentinel for `""` rather
than traversing or including `""` in any set. -/
theorem findCompleteLineage_empty_string_sentinel :
    ∀ (rels : List Relationship) (nodeList : List Node)
      (colRels : List ColumnRelationship) (ap : AllPorts)
      (rels2 : List Relationship) (nodeList2 : List Node),
      findCompleteLineage (some "") rels nodeList = emptyCompleteLinResult ∧
      findCompleteColumnLineage (some "") colRels ap = emptyCompleteColResult ∧
      findNodeLineage (some "") rels2 nodeList2 = NodeLinResult.mk [] [] := by
  intro rels nodeList colRels ap rels2 nodeList2
  exact ⟨rfl, rfl, rfl⟩

/-! ## Claim C2 — complete lineage is the union of the two directions -/

/-- Claim C2 (amended): for every *truthy* port id `p` (non-null and
non-empty — a falsy id takes the deselection path instead) and all
relationship and node lists, the combined sets of
`findCompleteLineage` are exactly the unions of the upstream and
downstream sets, and the `upstream`/`downstream` fields are the two
per-direction results unchanged. -/
theorem findCompleteLineage_is_union (p : String) (rels : List Relationship)
    (nodeList : List Node) (hp : p ≠ "") :
    (findCompleteLineage (some p) rels nodeList).nodes =
      setUnion (findUpstreamLineage p rels nodeList).nodes
        (findDownstreamLineage p rels nodeList).nodes ∧
    (findCompleteLineage (some p) rels nodeList).edges =
      setUnion (findUpstreamLineage p rels nodeList).edges
        (findDownstreamLineage p rels nodeList).edges ∧
    (findCompleteLineage (some p) rels nodeList).ports =
      setUnion (findUpstreamLineage p rels nodeList).ports
        (findDownstreamLineage p rels nodeList).ports ∧
    (findCompleteLineage (some p) rels nodeList).upstream =
      findUpstreamLineage p rels nodeList ∧
    (findCompleteLineage (some p) rels nodeList).downstream =
      findDownstreamLineage p rels nodeList := by
  have hguard : isFalsyId (some p) = false := by
    simp only [isFalsyId]
    exact beq_eq_false_iff_ne.mpr hp
  simp only [findCompleteLineage, hguard, Bool.false_eq_true, if_false, Option.getD_some]
  exact ⟨by trivial, by trivial, by trivial, by trivial, by trivial⟩

/-- Witness for Claim C2's amended theorem at a concrete input. -/
theorem findCompleteLineage_is_union_witness :
    ("p0" : String) ≠ "" ∧
    ((findCompleteLineage (some "p0") [] []).nodes =
      setUnion (findUpstreamLineage "p0" [] []).nodes
        (findDownstreamLineage "p0" [] []).nodes ∧
    (findCompleteLineage (some "p0") [] []).edges =
      setUnion (findUpstreamLineage "p0" [] []).edges
        (findDownstreamLineage "p0" [] []).edges ∧
    (findCompleteLineage (some "p0") [] []).ports =
      setUnion (findUpstreamLineage "p0" [] []).ports
        (findDownstreamLineage "p0" [] []).ports ∧
    (findCompleteLineage (some "p0") [] []).upstream =
      findUpstreamLineage "p0" [] [] ∧
    (findCompleteLineage (some "p0") [] []).downstream =
      findDownstreamLineage "p0" [] []) :=
  ⟨by decide, findCompleteLineage_is_union "p0" [] [] (by decide)⟩

/-- Counterexample to Claim C2 as stated: at the empty-string port id
(a port id in the model, but falsy in JS) the combined `ports` set is
the empty sentinel while the union of the two directional `ports`
sets contains `""`. -/
theorem findCompleteLineage_is_union_cx :
    ¬ ((findCompleteLineage (some "") [] []).ports =
        setUnion (findUpstreamLineage "" [] []).ports
          (findDownstreamLineage "" [] []).ports) := by
  decide

/-! ## Claim C3 — self-inclusion of the starting element -/

/-- Claim C3 (amended): for every *truthy* starting id (non-null and
non-empty — the empty string takes the falsiness-guarded deselection
path) and every graph, `findCompleteLineage(p, rels, nodes).ports`
contains `p` itself, even when `p` has no neighbors or is not listed
in any node's port lists; likewise
`findCompleteColumnLineage(c, colRels, allPorts).columns` contains
`c` itself. -/
theorem lineage_self_inclusion :
    (∀ (p : String) (rels : List Relationship) (nodeList : List Node), p ≠ "" →
      p ∈ (findCompleteLineage (some p) rels nodeList).ports) ∧
    (∀ (c : String) (colRels : List ColumnRelationship) (ap : AllPorts), c ≠ "" →
      c ∈ (findCompleteColumnLineage (some c) colRels ap).columns) := by
  constructor
  · intro p rels nodeList hp
    have hguard : isFalsyId (some p) = false := by
      simp only [isFalsyId]
      exact beq_eq_false_iff_ne.mpr hp
    simp only [findCompleteLineage, hguard, Bool.false_eq_true, if_false, Option.getD_some]
    refine mem_setUnion.mpr (Or.inl ?_)
    simp only [findUpstreamLineage]
    exact upTraverse_mem_ports rels nodeList (portUniverse rels nodeList).length p
      ⟨[], [], [], []⟩ (fun _ h => h)
  · intro c colRels ap hc
    have hguard : isFalsyId (some c) = false := by
      simp only [isFalsyId]
      exact beq_eq_false_iff_ne.mpr hc
    simp only [findCompleteColumnLineage, hguard, Bool.false_eq_true, if_false,
      Option.getD_some]
    refine mem_setUnion.mpr (Or.inl ?_)
    simp only [findUpstreamColumnLineage]
    exact colUpTraverse_mem_columns colRels ap (columnUniverse colRels).length c
      ⟨[], [], [], []⟩ (fun _ h => h)

/-- Witness for Claim C3's amended theorem at concrete inputs. -/
theorem lineage_self_inclusion_witness :
    (("p0" : String) ≠ "" ∧ "p0" ∈ (findCompleteLineage (some "p0") [] []).ports) ∧
    (("c0" : String) ≠ "" ∧
      "c0" ∈ (findCompleteColumnLineage (some "c0") [] (AllPorts.mk none [] [])).columns) :=
  ⟨⟨by decide, lineage_self_inclusion.1 "p0" [] [] (by decide)⟩,
   ⟨by decide, lineage_self_inclusion.2 "c0" [] (AllPorts.mk none [] []) (by decide)⟩⟩

/-- Counterexample to Claim C3 as stated: the empty string is a
non-null starting id whose complete-lineage port set does not contain
it (the falsiness guard returns the empty sentinel instead). -/
theorem lineage_self_inclusion_cx :
    ¬ ("" ∈ (findCompleteLineage (some "") [] []).ports) := by
  decide

/-! ## Lemmas about the edge maps and edge-id strings -/

theorem string_append_left_cancel {s x y : String} (h : s ++ x = s ++ y) : x = y := by
  have hd : (s ++ x).data = (s ++ y).data := by rw [h]
  simp only [String.data_append] at hd
  have h2 : x.data = y.data := List.append_cancel_left hd
  cases x; cases y
  simp only at h2
  rw [h2]

theorem mem_portToEdges_of_source {rels : List Relationship} {r : Relationship}
    (hr : r ∈ rels) (hty : r.type = "port") : r ∈ portToEdges rels r.sourcePort := by
  unfold portToEdges
  refine List.mem_flatMap.mpr ⟨r, List.mem_filter.mpr ⟨hr, by simp [hty]⟩, ?_⟩
  simp

theorem mem_portToEdges_of_target {rels : List Relationship} {r : Relationship}
    (hr : r ∈ rels) (hty : r.type = "port") : r ∈ portToEdges rels r.targetPort := by
  unfold portToEdges
  refine List.mem_flatMap.mpr ⟨r, List.mem_filter.mpr ⟨hr, by simp [hty]⟩, ?_⟩
  by_cases hs : (r.sourcePort == r.targetPort) = true <;> simp [hs]

theorem of_mem_portToEdges {rels : List Relationship} {p : String} {e : Relationship}
    (he : e ∈ portToEdges rels p) :
    e ∈ rels ∧ e.type = "port" ∧ (e.sourcePort = p ∨ e.targetPort = p) := by
  unfold portToEdges at he
  rcases List.mem_flatMap.mp he with ⟨a, ha, hmem⟩
  have haf := List.mem_filter.mp ha
  have haty : a.type = "port" := by
    have := haf.2
    simpa using this
  rcases List.mem_append.mp hmem with h1 | h2
  · by_cases hs : (a.sourcePort == p) = true
    · simp only [hs, if_true, List.mem_singleton] at h1
      subst h1
      exact ⟨haf.1, haty, Or.inl (by simpa using hs)⟩
    · simp [hs] at h1
  · by_cases ht : (a.targetPort == p) = true
    · simp only [ht, if_true, List.mem_singleton] at h2
      subst h2
      exact ⟨haf.1, haty, Or.inr (by simpa using ht)⟩
    · simp [ht] at h2

/-- Shape invariant of the `edges` set accumulated by the *upstream*
traversal: every element is `edge-` + the id of some `"port"`-type
relationship of the input list whose target port has already been
collected into the `ports` set and resolves to an input port. -/
def UEdgeOk (rels : List Relationship) (nodeList : List Node)
    (x : String) (ports : List String) : Prop :=
  ∃ e, e ∈ rels ∧ e.type = "port" ∧ x = "edge-" ++ e.id ∧ e.targetPort ∈ ports ∧
    ∃ info, portToNode nodeList e.targetPort = some info ∧ info.type = "input"

theorem uEdgeOk_mono {rels : List Relationship} {nodeList : List Node}
    {x : String} {ports ports' : List String} (h : UEdgeOk rels nodeList x ports)
    (hsub : ports ⊆ ports') : UEdgeOk rels nodeList x ports' := by
  rcases h with ⟨e, h1, h2, h3, h4, h5⟩
  exact ⟨e, h1, h2, h3, hsub h4, h5⟩

/-- Shape invariant of the `edges` set accumulated by the *downstream*
traversal. -/
def DEdgeOk (rels : List Relationship) (nodeList : List Node)
    (x : String) (ports : List String) : Prop :=
  ∃ e, e ∈ rels ∧ e.type = "port" ∧ x = "edge-" ++ e.id ∧ e.sourcePort ∈ ports ∧
    ∃ info, portToNode nodeList e.sourcePort = some info ∧ info.type = "output"

theorem dEdgeOk_mono {rels : List Relationship} {nodeList : List Node}
    {x : String} {ports ports' : List String} (h : DEdgeOk rels nodeList x ports)
    (hsub : ports ⊆ ports') : DEdgeOk rels nodeList x ports' := by
  rcases h with ⟨e, h1, h2, h3, h4, h5⟩
  exact ⟨e, h1, h2, h3, hsub h4, h5⟩

theorem upTraverse_edges_ok (rels : List Relationship) (nodeList : List Node) :
    ∀ (fuel : Nat) (p : String) (s : LinState),
      (∀ x ∈ s.edges, UEdgeOk rels nodeList x s.ports) →
      ∀ x ∈ (upTraverse rels nodeList fuel p s).edges,
        UEdgeOk rels nodeList x (upTraverse rels nodeList fuel p s).ports := by
  intro fuel
  induction fuel with
  | zero => intro p s hs; exact hs
  | succ fuel ih =>
    intro p s hs
    rw [upTraverse]
    by_cases hp : p ∈ s.visited
    · simp only [hp, if_true]; exact hs
    · simp only [hp, if_false]
      have hs1 : ∀ x ∈ s.edges, UEdgeOk rels nodeList x (listInsert s.ports p) :=
        fun x hx => uEdgeOk_mono (hs x hx) (subset_listInsert _ _)
      rcases hpn : portToNode nodeList p with _ | info
      · exact hs1
      · have hrel : ∀ t : LinState,
            ((∀ x ∈ t.edges, UEdgeOk rels nodeList x t.ports) ∧ p ∈ t.ports) →
            ((∀ x ∈ ((findInternalRelatedPorts p info.nodeId nodeList).foldl
              (fun st rp =>
                upTraverse rels nodeList fuel rp
                  { st with ports := listInsert st.ports rp }) t).edges,
              UEdgeOk rels nodeList x
                ((findInternalRelatedPorts p info.nodeId nodeList).foldl
                  (fun st rp =>
                    upTraverse rels nodeList fuel rp
                      { st with ports := listInsert st.ports rp }) t).ports) ∧
             p ∈ ((findInternalRelatedPorts p info.nodeId nodeList).foldl
                  (fun st rp =>
                    upTraverse rels nodeList fuel rp
                      { st with ports := listInsert st.ports rp }) t).ports) := by
          intro t ht
          refine foldl_pres
            (P := fun st : LinState =>
              (∀ x ∈ st.edges, UEdgeOk rels nodeList x st.ports) ∧ p ∈ st.ports)
            ?_ t ht
          intro st rp _ hst
          constructor
          · exact ih _ _ (fun x hx => uEdgeOk_mono (hst.1 x hx) (subset_listInsert _ _))
          · exact (upTraverse_linLE rels nodeList fuel _ _).2.2.2
              (subset_listInsert _ _ hst.2)
        have hedge : (info.type == "input") = true → ∀ t : LinState,
            ((∀ x ∈ t.edges, UEdgeOk rels nodeList x t.ports) ∧ p ∈ t.ports) →
            ((∀ x ∈ ((portToEdges rels p).foldl
              (fun st e =>
                if e.type == "port" && e.targetPort == p then
                  upTraverse rels nodeList fuel e.sourcePort
                    { st with edges := listInsert st.edges ("edge-" ++ e.id) }
                else st) t).edges,
              UEdgeOk rels nodeList x
                ((portToEdges rels p).foldl
                  (fun st e =>
                    if e.type == "port" && e.targetPort == p then
                      upTraverse rels nodeList fuel e.sourcePort
                        { st with edges := listInsert st.edges ("edge-" ++ e.id) }
                    else st) t).ports) ∧
             p ∈ ((portToEdges rels p).foldl
                  (fun st e =>
                    if e.type == "port" && e.targetPort == p then
                      upTraverse rels nodeList fuel e.sourcePort
                        { st with edges := listInsert st.edges ("edge-" ++ e.id) }
                    else st) t).ports) := by
          intro hi t ht
          refine foldl_pres
            (P := fun st : LinState =>
              (∀ x ∈ st.edges, UEdgeOk rels nodeList x st.ports) ∧ p ∈ st.ports)
            ?_ t ht
          intro st e he hst
          by_cases hc : (e.type == "port" && e.targetPort == p) = true
          · simp only [hc, if_true]
            have hce := of_mem_portToEdges he
            have htgt : e.targetPort = p := by
              have := (Bool.and_eq_true_iff.mp hc).2
              simpa using this
            have hty : info.type = "input" := by simpa using hi
            have hnew : ∀ x ∈ listInsert st.edges ("edge-" ++ e.id),
                UEdgeOk rels nodeList x st.ports := by
              intro x hx
              rcases mem_listInsert.mp hx with hx | rfl
              · exact hst.1 x hx
              · exact ⟨e, hce.1, hce.2.1, rfl, by rw [htgt]; exact hst.2,
                  info, by rw [htgt]; exact hpn, hty⟩
            constructor
            · exact ih _ _ hnew
            · exact (upTraverse_linLE rels nodeList fuel _ _).2.2.2 hst.2
          · simp only [hc, if_false]
            exact hst
        have hps1 : p ∈ (listInsert s.ports p) := self_mem_listInsert _ _
        by_cases ho : (info.type == "output") = true <;>
          by_cases hi : (info.type == "input") = true <;>
            simp only [ho, hi, if_true, if_false]
        · exact (hedge hi _ (hrel _ ⟨hs1, hps1⟩)).1
        · exact (hrel _ ⟨hs1, hps1⟩).1
        · exact (hedge hi _ ⟨hs1, hps1⟩).1
        · exact hs1

theorem downTraverse_edges_ok (rels : List Relationship) (nodeList : List Node) :
    ∀ (fuel : Nat) (p : String) (s : LinState),
      (∀ x ∈ s.edges, DEdgeOk rels nodeList x s.ports) →
      ∀ x ∈ (downTraverse rels nodeList fuel p s).edges,
        DEdgeOk rels nodeList x (downTraverse rels nodeList fuel p s).ports := by
  intro fuel
  induction fuel with
  | zero => intro p s hs; exact hs
  | succ fuel ih =>
    intro p s hs
    rw [downTraverse]
    by_cases hp : p ∈ s.visited
    · simp only [hp, if_true]; exact hs
    · simp only [hp, if_false]
      have hs1 : ∀ x ∈ s.edges, DEdgeOk rels nodeList x (listInsert s.ports p) :=
        fun x hx => dEdgeOk_mono (hs x hx) (subset_listInsert _ _)
      rcases hpn : portToNode nodeList p with _ | info
      · exact hs1
      · have hrel : ∀ t : LinState,
            ((∀ x ∈ t.edges, DEdgeOk rels nodeList x t.ports) ∧ p ∈ t.ports) →
            ((∀ x ∈ ((findInternalRelatedPorts p info.nodeId nodeList).foldl
              (fun st rp =>
                downTraverse rels nodeList fuel rp
                  { st with ports := listInsert st.ports rp }) t).edges,
              DEdgeOk rels nodeList x
                ((findInternalRelatedPorts p info.nodeId nodeList).foldl
                  (fun st rp =>
                    downTraverse rels nodeList fuel rp
                      { st with ports := listInsert st.ports rp }) t).ports) ∧
             p ∈ ((findInternalRelatedPorts p info.nodeId nodeList).foldl
                  (fun st rp =>
                    downTraverse rels nodeList fuel rp
                      { st with ports := listInsert st.ports rp }) t).ports) := by
          intro t ht
          refine foldl_pres
            (P := fun st : LinState =>
              (∀ x ∈ st.edges, DEdgeOk rels nodeList x st.ports) ∧ p ∈ st.ports)
            ?_ t ht
          intro st rp _ hst
          constructor
          · exact ih _ _ (fun x hx => dEdgeOk_mono (hst.1 x hx) (subset_listInsert _ _))
          · exact (downTraverse_linLE rels nodeList fuel _ _).2.2.2
              (subset_listInsert _ _ hst.2)
        have hedge : (info.type == "output") = true → ∀ t : LinState,
            ((∀ x ∈ t.edges, DEdgeOk rels nodeList x t.ports) ∧ p ∈ t.ports) →
            ((∀ x ∈ ((portToEdges rels p).foldl
              (fun st e =>
                if e.type == "port" && e.sourcePort == p then
                  downTraverse rels nodeList fuel e.targetPort
                    { st with edges := listInsert st.edges ("edge-" ++ e.id) }
                else st) t).edges,
              DEdgeOk rels nodeList x
                ((portToEdges rels p).foldl
                  (fun st e =>
                    if e.type == "port" && e.sourcePort == p then
                      downTraverse rels nodeList fuel e.targetPort
                        { st with edges := listInsert st.edges ("edge-" ++ e.id) }
                    else st) t).ports) ∧
             p ∈ ((portToEdges rels p).foldl
                  (fun st e =>
                    if e.type == "port" && e.sourcePort == p then
                      downTraverse rels nodeList fuel e.targetPort
                        { st with edges := listInsert st.edges ("edge-" ++ e.id) }
                    else st) t).ports) := by
          intro hi t ht
          refine foldl_pres
            (P := fun st : LinState =>
              (∀ x ∈ st.edges, DEdgeOk rels nodeList x st.ports) ∧ p ∈ st.ports)
            ?_ t ht
          intro st e he hst
          by_cases hc : (e.type == "port" && e.sourcePort == p) = true
          · simp only [hc, if_true]
            have hce := of_mem_portToEdges he
            have htgt : e.sourcePort = p := by
              have := (Bool.and_eq_true_iff.mp hc).2
              simpa using this
            have hty : info.type = "output" := by simpa using hi
            have hnew : ∀ x ∈ listInsert st.edges ("edge-" ++ e.id),
                DEdgeOk rels nodeList x st.ports := by
              intro x hx
              rcases mem_listInsert.mp hx with hx | rfl
              · exact hst.1 x hx
              · exact ⟨e, hce.1, hce.2.1, rfl, by rw [htgt]; exact hst.2,
                  info, by rw [htgt]; exact hpn, hty⟩
            constructor
            · exact ih _ _ hnew
            · exact (downTraverse_linLE rels nodeList fuel _ _).2.2.2 hst.2
          · simp only [hc, if_false]
            exact hst
        have hps1 : p ∈ (listInsert s.ports p) := self_mem_listInsert _ _
        by_cases hi : (info.type == "input") = true <;>
          by_cases ho : (info.type == "output") = true <;>
            simp only [ho, hi, if_true, if_false]
        · exact (hedge ho _ (hrel _ ⟨hs1, hps1⟩)).1
        · exact (hrel _ ⟨hs1, hps1⟩).1
        · exact (hedge ho _ ⟨hs1, hps1⟩).1
        · exact hs1

theorem up_edge_fold_mem (rels : List Relationship) (nodeList : List Node)
    (fuel : Nat) (p : String) :
    ∀ (L : List Relationship) (st : LinState) (r : Relationship),
      r ∈ L → (r.type == "port" && r.targetPort == p) = true →
      st.visited ⊆ st.ports →
      ("edge-" ++ r.id) ∈ (L.foldl
        (fun st e =>
          if e.type == "port" && e.targetPort == p then
            upTraverse rels nodeList (fuel + 1) e.sourcePort
              { st with edges := listInsert st.edges ("edge-" ++ e.id) }
          else st) st).edges ∧
      r.sourcePort ∈ (L.foldl
        (fun st e =>
          if e.type == "port" && e.targetPort == p then
            upTraverse rels nodeList (fuel + 1) e.sourcePort
              { st with edges := listInsert st.edges ("edge-" ++ e.id) }
          else st) st).ports := by
  intro L
  induction L with
  | nil => intro st r hr; exact absurd hr (List.not_mem_nil r)
  | cons a L ih =>
    intro st r hr hc hvp
    have hgrow : ∀ t : LinState, LinLE t (L.foldl
        (fun st e =>
          if e.type == "port" && e.targetPort == p then
            upTraverse rels nodeList (fuel + 1) e.sourcePort
              { st with edges := listInsert st.edges ("edge-" ++ e.id) }
          else st) t) := by
      intro t
      refine foldl_rel (fun s => linLE_refl) (fun h1 h2 => linLE_trans h1 h2) ?_ _
      intro st' e _
      by_cases hce : (e.type == "port" && e.targetPort == p) = true
      · simp only [hce, if_true]
        exact linLE_trans
          (b := { st' with edges := listInsert st'.edges ("edge-" ++ e.id) })
          ⟨(fun _ h => h), (fun _ h => h), subset_listInsert _ _, (fun _ h => h)⟩
          (upTraverse_linLE rels nodeList (fuel + 1) _ _)
      · simp only [hce, if_false]; exact linLE_refl
    simp only [List.foldl_cons]
    rcases List.mem_cons.mp hr with rfl | hr
    · simp only [hc, if_true]
      have hvp' : ({ st with edges := listInsert st.edges ("edge-" ++ r.id) } :
          LinState).visited ⊆
          ({ st with edges := listInsert st.edges ("edge-" ++ r.id) } : LinState).ports := hvp
      have h1 : ("edge-" ++ r.id) ∈
          (upTraverse rels nodeList (fuel + 1) r.sourcePort
            { st with edges := listInsert st.edges ("edge-" ++ r.id) }).edges :=
        (upTraverse_linLE rels nodeList (fuel + 1) _ _).2.2.1
          (self_mem_listInsert _ _)
      have h2 : r.sourcePort ∈
          (upTraverse rels nodeList (fuel + 1) r.sourcePort
            { st with edges := listInsert st.edges ("edge-" ++ r.id) }).ports :=
        upTraverse_mem_ports rels nodeList fuel r.sourcePort _ hvp'
      exact ⟨(hgrow _).2.2.1 h1, (hgrow _).2.2.2 h2⟩
    · refine ih _ r hr hc ?_
      by_cases hce : (a.type == "port" && a.targetPort == p) = true
      · simp only [hce, if_true]
        exact upTraverse_vp rels nodeList (fuel + 1) _ _ hvp
      · simp only [hce, if_false]
        exact hvp

theorem down_edge_fold_mem (rels : List Relationship) (nodeList : List Node)
    (fuel : Nat) (p : String) :
    ∀ (L : List Relationship) (st : LinState) (r : Relationship),
      r ∈ L → (r.type == "port" && r.sourcePort == p) = true →
      st.visited ⊆ st.ports →
      ("edge-" ++ r.id) ∈ (L.foldl
        (fun st e =>
          if e.type == "port" && e.sourcePort == p then
            downTraverse rels nodeList (fuel + 1) e.targetPort
              { st with edges := listInsert st.edges ("edge-" ++ e.id) }
          else st) st).edges ∧
      r.targetPort ∈ (L.foldl
        (fun st e =>
          if e.type == "port" && e.sourcePort == p then
            downTraverse rels nodeList (fuel + 1) e.targetPort
              { st with edges := listInsert st.edges ("edge-" ++ e.id) }
          else st) st).ports := by
  intro L
  induction L with
  | nil => intro st r hr; exact absurd hr (List.not_mem_nil r)
  | cons a L ih =>
    intro st r hr hc hvp
    have hgrow : ∀ t : LinState, LinLE t (L.foldl
        (fun st e =>
          if e.type == "port" && e.sourcePort == p then
            downTraverse rels nodeList (fuel + 1) e.targetPort
              { st with edges := listInsert st.edges ("edge-" ++ e.id) }
          else st) t) := by
      intro t
      refine foldl_rel (fun s => linLE_refl) (fun h1 h2 => linLE_trans h1 h2) ?_ _
      intro st' e _
      by_cases hce : (e.type == "port" && e.sourcePort == p) = true
      · simp only [hce, if_true]
        exact linLE_trans
          (b := { st' with edges := listInsert st'.edges ("edge-" ++ e.id) })
          ⟨(fun _ h => h), (fun _ h => h), subset_listInsert _ _, (fun _ h => h)⟩
          (downTraverse_linLE rels nodeList (fuel + 1) _ _)
      · simp only [hce, if_false]; exact linLE_refl
    simp only [List.foldl_cons]
    rcases List.mem_cons.mp hr with rfl | hr
    · simp only [hc, if_true]
      have hvp' : ({ st with edges := listInsert st.edges ("edge-" ++ r.id) } :
          LinState).visited ⊆
          ({ st with edges := listInsert st.edges ("edge-" ++ r.id) } : LinState).ports := hvp
      have h1 : ("edge-" ++ r.id) ∈
          (downTraverse rels nodeList (fuel + 1) r.targetPort
            { st with edges := listInsert st.edges ("edge-" ++ r.id) }).edges :=
        (downTraverse_linLE rels nodeList (fuel + 1) _ _).2.2.1
          (self_mem_listInsert _ _)
      have h2 : r.targetPort ∈
          (downTraverse rels nodeList (fuel + 1) r.targetPort
            { st with edges := listInsert st.edges ("edge-" ++ r.id) }).ports :=
        downTraverse_mem_ports rels nodeList fuel r.targetPort _ hvp'
      exact ⟨(hgrow _).2.2.1 h1, (hgrow _).2.2.2 h2⟩
    · refine ih _ r hr hc ?_
      by_cases hce : (a.type == "port" && a.sourcePort == p) = true
      · simp only [hce, if_true]
        exact downTraverse_vp rels nodeList (fuel + 1) _ _ hvp
      · simp only [hce, if_false]
        exact hvp

theorem portUniverse_length_pos {rels : List Relationship} {nodeList : List Node}
    {r : Relationship} (hr : r ∈ rels) : 0 < (portUniverse rels nodeList).length := by
  have hmem : r.sourcePort ∈ portUniverse rels nodeList := by
    unfold portUniverse
    exact List.mem_append.mpr (Or.inr (List.mem_flatMap.mpr ⟨r, hr, by simp⟩))
  exact List.length_pos.mpr (List.ne_nil_of_mem hmem)

theorem upstream_includes_cross_edge (rels : List Relationship) (nodeList : List Node)
    (r : Relationship) (n2 : String) (hr : r ∈ rels) (hty : r.type = "port")
    (htgt : portToNode nodeList r.targetPort = some (PortInfo.mk n2 "input")) :
    ("edge-" ++ r.id) ∈ (findUpstreamLineage r.targetPort rels nodeList).edges ∧
    r.sourcePort ∈ (findUpstreamLineage r.targetPort rels nodeList).ports := by
  obtain ⟨k, hk⟩ : ∃ k, (portUniverse rels nodeList).length = k + 1 :=
    ⟨(portUniverse rels nodeList).length - 1,
      (Nat.succ_pred_eq_of_pos (portUniverse_length_pos hr)).symm⟩
  have hfuel : lineageFuel rels nodeList = (k + 1) + 1 := by
    simp [lineageFuel, hk]
  simp only [findUpstreamLineage, hfuel]
  rw [upTraverse]
  simp only [LinState.visited, List.not_mem_nil, if_false, htgt]
  simp only [show (("input" : String) == "output") = false from by decide,
    show (("input" : String) == "input") = true from by decide,
    Bool.false_eq_true, if_false, if_true]
  exact up_edge_fold_mem rels nodeList k r.targetPort _ _ r
    (mem_portToEdges_of_target hr hty)
    (by simp [hty]) (fun x h => h)

theorem downstream_includes_cross_edge (rels : List Relationship) (nodeList : List Node)
    (r : Relationship) (n1 : String) (hr : r ∈ rels) (hty : r.type = "port")
    (hsrc : portToNode nodeList r.sourcePort = some (PortInfo.mk n1 "output")) :
    ("edge-" ++ r.id) ∈ (findDownstreamLineage r.sourcePort rels nodeList).edges ∧
    r.targetPort ∈ (findDownstreamLineage r.sourcePort rels nodeList).ports := by
  obtain ⟨k, hk⟩ : ∃ k, (portUniverse rels nodeList).length = k + 1 :=
    ⟨(portUniverse rels nodeList).length - 1,
      (Nat.succ_pred_eq_of_pos (portUniverse_length_pos hr)).symm⟩
  have hfuel : lineageFuel rels nodeList = (k + 1) + 1 := by
    simp [lineageFuel, hk]
  simp only [findDownstreamLineage, hfuel]
  rw [downTraverse]
  simp only [LinState.visited, List.not_mem_nil, if_false, hsrc]
  simp only [show (("output" : String) == "input") = false from by decide,
    show (("output" : String) == "output") = true from by decide,
    Bool.false_eq_true, if_false, if_true]
  exact down_edge_fold_mem rels nodeList k r.sourcePort _ _ r
    (mem_portToEdges_of_source hr hty)
    (by simp [hty]) (fun x h => h)

theorem upstream_edge_form (rels : List Relationship) (nodeList : List Node) (q : String) :
    ∀ x ∈ (findUpstreamLineage q rels nodeList).edges,
      UEdgeOk rels nodeList x (findUpstreamLineage q rels nodeList).ports := by
  simp only [findUpstreamLineage]
  exact upTraverse_edges_ok rels nodeList (lineageFuel rels nodeList) q
    ⟨[], [], [], []⟩ (by intro x hx; exact absurd hx (List.not_mem_nil x))

theorem downstream_edge_form (rels : List Relationship) (nodeList : List Node) (q : String) :
    ∀ x ∈ (findDownstreamLineage q rels nodeList).edges,
      DEdgeOk rels nodeList x (findDownstreamLineage q rels nodeList).ports := by
  simp only [findDownstreamLineage]
  exact downTraverse_edges_ok rels nodeList (lineageFuel rels nodeList) q
    ⟨[], [], [], []⟩ (by intro x hx; exact absurd hx (List.not_mem_nil x))

/-! ## Claim C1 — direction asymmetry of cross-node traversal -/

/-- Claim C1 (amended): for every graph with a `"port"`-type
relationship `r` whose source port resolves to an output of its node
and whose target port resolves to an input of its node,
`findDownstreamLineage(source)` includes the relationship's edge id
and the target port, and `findUpstreamLineage(target)` includes the
same edge id and the source port.  The third part of the original
claim holds only conditionally: `findUpstreamLineage(source)` omits
that edge id *provided* the upstream walk from the source never
reaches the target port (and no other port-relationship reuses `r`'s
id with a different target) — an output's declared related ports can
otherwise lead the upstream walk to the target port, whose incoming
edge is then collected. -/
theorem direction_asymmetry (rels : List Relationship) (nodeList : List Node)
    (r : Relationship) (n1 n2 : String) (hr : r ∈ rels) (hty : r.type = "port")
    (hsrc : portToNode nodeList r.sourcePort = some (PortInfo.mk n1 "output"))
    (htgt : portToNode nodeList r.targetPort = some (PortInfo.mk n2 "input")) :
    (("edge-" ++ r.id) ∈ (findDownstreamLineage r.sourcePort rels nodeList).edges ∧
     r.targetPort ∈ (findDownstreamLineage r.sourcePort rels nodeList).ports) ∧
    (("edge-" ++ r.id) ∈ (findUpstreamLineage r.targetPort rels nodeList).edges ∧
     r.sourcePort ∈ (findUpstreamLineage r.targetPort rels nodeList).ports) ∧
    (r.targetPort ∉ (findUpstreamLineage r.sourcePort rels nodeList).ports →
     (∀ e ∈ rels, e.type = "port" → e.id = r.id → e.targetPort = r.targetPort) →
     ("edge-" ++ r.id) ∉ (findUpstreamLineage r.sourcePort rels nodeList).edges) := by
  refine ⟨downstream_includes_cross_edge rels nodeList r n1 hr hty hsrc,
    upstream_includes_cross_edge rels nodeList r n2 hr hty htgt, ?_⟩
  intro hnp hag hmem
  rcases upstream_edge_form rels nodeList r.sourcePort _ hmem with
    ⟨e, he, hety, heq, hport, _⟩
  have hid : r.id = e.id := string_append_left_cancel heq
  have htp : e.targetPort = r.targetPort := hag e he hety hid.symm
  rw [htp] at hport
  exact hnp hport

/-- Graph used to witness Claim C1 and to refute its third part as
originally stated: node `A` has output `P1` whose related-port list
names `P2`, node `B` has input `P2`, and one port relationship
`P1 → P2`. -/
def loopPortRel : Relationship := ⟨"r1", "port", "A", "P1", "B", "P2"⟩

/-- Node list of the Claim C1 graph. -/
def loopNodes : List Node :=
  [⟨"A", ⟨[], [⟨"P1", ["P2"]⟩]⟩⟩, ⟨"B", ⟨[⟨"P2", []⟩], []⟩⟩]

/-- Relationship list of the Claim C1 graph. -/
def loopRels : List Relationship := [loopPortRel]

/-- Witness for Claim C1's amended theorem at a concrete graph. -/
theorem direction_asymmetry_witness :
    (loopPortRel ∈ loopRels ∧ loopPortRel.type = "port" ∧
     portToNode loopNodes loopPortRel.sourcePort = some (PortInfo.mk "A" "output") ∧
     portToNode loopNodes loopPortRel.targetPort = some (PortInfo.mk "B" "input")) ∧
    ((("edge-" ++ loopPortRel.id) ∈
        (findDownstreamLineage loopPortRel.sourcePort loopRels loopNodes).edges ∧
      loopPortRel.targetPort ∈
        (findDownstreamLineage loopPortRel.sourcePort loopRels loopNodes).ports) ∧
     (("edge-" ++ loopPortRel.id) ∈
        (findUpstreamLineage loopPortRel.targetPort loopRels loopNodes).edges ∧
      loopPortRel.sourcePort ∈
        (findUpstreamLineage loopPortRel.targetPort loopRels loopNodes).ports) ∧
     (loopPortRel.targetPort ∉
        (findUpstreamLineage loopPortRel.sourcePort loopRels loopNodes).ports →
      (∀ e ∈ loopRels, e.type = "port" → e.id = loopPortRel.id →
        e.targetPort = loopPortRel.targetPort) →
      ("edge-" ++ loopPortRel.id) ∉
        (findUpstreamLineage loopPortRel.sourcePort loopRels loopNodes).edges)) :=
  ⟨⟨by decide, by decide, by decide, by decide⟩,
   direction_asymmetry loopRels loopNodes loopPortRel "A" "B"
     (by decide) (by decide) (by decide) (by decide)⟩

/-- Counterexample to Claim C1's third part as stated: in the
`loopNodes`/`loopRels` graph the source port is an output, the target
port an input, and yet `findUpstreamLineage` from the *source* port
does collect the relationship's edge id (the related-port list of the
output leads the upstream walk to the target port). -/
theorem direction_asymmetry_cx :
    portToNode loopNodes "P1" = some (PortInfo.mk "A" "output") ∧
    portToNode loopNodes "P2" = some (PortInfo.mk "B" "input") ∧
    ("edge-" ++ "r1") ∈ (findUpstreamLineage "P1" loopRels loopNodes).edges := by
  decide

/-! ## Claim C4 — concrete three-node chain scenario -/

/-- The three-node chain of Claim C4: `A.out1 → B.in1`, `B.out1 → C.in1`,
no related-port declarations. -/
def chainNodes : List Node :=
  [⟨"A", ⟨[], [⟨"A.out1", []⟩]⟩⟩,
   ⟨"B", ⟨[⟨"B.in1", []⟩], [⟨"B.out1", []⟩]⟩⟩,
   ⟨"C", ⟨[⟨"C.in1", []⟩], []⟩⟩]

/-- Relationship list of the Claim C4 chain. -/
def chainRels : List Relationship :=
  [⟨"e1", "port", "A", "A.out1", "B", "B.in1"⟩,
   ⟨"e2", "port", "B", "B.out1", "C", "C.in1"⟩]

/-- Claim C4 (amended): `findCompleteLineage(B.in1)` on the three-node
chain returns nodes `{A, B}`, ports `{A.out1, B.in1}` and edges
`{edge-e1}` (the `A → B` edge); its upstream result is non-empty
(nodes `{B, A}`, edges `{edge-e1}`, ports `{B.in1, A.out1}`); its
downstream result has an *empty edge set* but, contrary to the
original claim, is not entirely empty: it contains the start port's
own node and the start port itself (nodes `{B}`, ports `{B.in1}`),
which add nothing to the combined sets. -/
theorem chain_scenario_lineage :
    (findCompleteLineage (some "B.in1") chainRels chainNodes).nodes = ["B", "A"] ∧
    (findCompleteLineage (some "B.in1") chainRels chainNodes).ports =
      ["B.in1", "A.out1"] ∧
    (findCompleteLineage (some "B.in1") chainRels chainNodes).edges = ["edge-e1"] ∧
    (findCompleteLineage (some "B.in1") chainRels chainNodes).upstream =
      LinResult.mk ["B", "A"] ["edge-e1"] ["B.in1", "A.out1"] ∧
    (findCompleteLineage (some "B.in1") chainRels chainNodes).downstream =
      LinResult.mk ["B"] [] ["B.in1"] := by
  decide

/-- Counterexample to Claim C4 as stated: the downstream result of
`findCompleteLineage(B.in1)` on the chain is not all-empty — its
nodes and ports sets are non-empty (only its edge set is empty). -/
theorem chain_scenario_cx :
    ¬ ((findCompleteLineage (some "B.in1") chainRels chainNodes).downstream.nodes = [] ∧
       (findCompleteLineage (some "B.in1") chainRels chainNodes).downstream.edges = [] ∧
       (findCompleteLineage (some "B.in1") chainRels chainNodes).downstream.ports = []) := by
  decide

/-! ## Claim C7 — dangling-port relationships -/

/-- Claim C7 (amended): a `"port"`-type relationship is inert per
direction according to which of its endpoints resolves: if every
port-relationship carrying `r`'s id has a *target* port unknown to the
port→node lookup, `r`'s edge id never enters an upstream edge set (for
any start port); if every such relationship has an unknown *source*
port, it never enters a downstream edge set.  In particular a
relationship with both endpoints dangling is fully inert.  (The
original claim — that one missing endpoint makes the relationship
inert in both directions — is false: a relationship with a dangling
source but a valid input target still yields an upstream edge.) -/
theorem dangling_relationship_inert (rels : List Relationship) (nodeList : List Node)
    (r : Relationship) (start : String) :
    ((∀ e ∈ rels, e.type = "port" → e.id = r.id →
        portToNode nodeList e.targetPort = none) →
      ("edge-" ++ r.id) ∉ (findUpstreamLineage start rels nodeList).edges) ∧
    ((∀ e ∈ rels, e.type = "port" → e.id = r.id →
        portToNode nodeList e.sourcePort = none) →
      ("edge-" ++ r.id) ∉ (findDownstreamLineage start rels nodeList).edges) := by
  constructor
  · intro h hmem
    rcases upstream_edge_form rels nodeList start _ hmem with
      ⟨e, he, hety, heq, _, info, hinfo, _⟩
    have hid : r.id = e.id := string_append_left_cancel heq
    rw [h e he hety hid.symm] at hinfo
    exact Option.noConfusion hinfo
  · intro h hmem
    rcases downstream_edge_form rels nodeList start _ hmem with
      ⟨e, he, hety, heq, _, info, hinfo, _⟩
    have hid : r.id = e.id := string_append_left_cancel heq
    rw [h e he hety hid.symm] at hinfo
    exact Option.noConfusion hinfo

/-- A fully dangling relationship: neither endpoint port exists. -/
def ghostRel : Relationship := ⟨"r1", "port", "", "ghost1", "", "ghost2"⟩

/-- Witness for Claim C7's amended theorem: with `ghostRel` as only
relationship and no nodes at all, both directions ignore its edge. -/
theorem dangling_relationship_inert_witness :
    ((∀ e ∈ [ghostRel], e.type = "port" → e.id = ghostRel.id →
        portToNode [] e.targetPort = none) ∧
     (∀ e ∈ [ghostRel], e.type = "port" → e.id = ghostRel.id →
        portToNode [] e.sourcePort = none)) ∧
    (("edge-" ++ ghostRel.id) ∉ (findUpstreamLineage "ghost2" [ghostRel] []).edges ∧
     ("edge-" ++ ghostRel.id) ∉ (findDownstreamLineage "ghost2" [ghostRel] []).edges) :=
  ⟨⟨by decide, by decide⟩,
   ⟨(dangling_relationship_inert [ghostRel] [] ghostRel "ghost2").1 (by decide),
    (dangling_relationship_inert [ghostRel] [] ghostRel "ghost2").2 (by decide)⟩⟩

/-- Node list for the Claim C7 counterexample: only node `B` with
input `P2`. -/
def dangNodes : List Node := [⟨"B", ⟨[⟨"P2", []⟩], []⟩⟩]

/-- Relationship list for the Claim C7 counterexample: a port
relationship whose source port `ghost` exists in no node but whose
target `P2` is a valid input. -/
def dangRels : List Relationship := [⟨"r1", "port", "", "ghost", "B", "P2"⟩]

/-- Counterexample to Claim C7 as stated: `dangRels`'s only
relationship references a port (`ghost`) absent from every node's
lists, yet its edge id does appear in an upstream edge set. -/
theorem dangling_relationship_inert_cx :
    portToNode dangNodes "ghost" = none ∧
    ("edge-" ++ "r1") ∈ (findUpstreamLineage "P2" dangRels dangNodes).edges := by
  decide

/-! ## Edge-shape invariants for node lineage and column lineage -/

theorem nlTraverse_edges_ok (rels : List Relationship) :
    ∀ (fuel : Nat) (curr : String) (s : NodeLinState),
      (∀ x ∈ s.edges, ∃ rr ∈ rels, rr.type = "direct" ∧ x = "edge-" ++ rr.id) →
      ∀ x ∈ (nlTraverse rels fuel curr s).edges,
        ∃ rr ∈ rels, rr.type = "direct" ∧ x = "edge-" ++ rr.id := by
  intro fuel
  induction fuel with
  | zero => intro curr s hs; exact hs
  | succ fuel ih =>
    intro curr s hs
    rw [nlTraverse]
    by_cases hc : curr ∈ s.visited
    · simp only [hc, if_true]; exact hs
    · simp only [hc, if_false]
      refine foldl_pres
        (P := fun st : NodeLinState =>
          ∀ x ∈ st.edges, ∃ rr ∈ rels, rr.type = "direct" ∧ x = "edge-" ++ rr.id)
        ?_ _ hs
      intro st r hrmem hst
      by_cases hd : (r.type == "direct") = true
      · simp only [hd, if_true]
        have hdirect : r.type = "direct" := by simpa using hd
        have hstep : ∀ t : NodeLinState,
            (∀ x ∈ t.edges, ∃ rr ∈ rels, rr.type = "direct" ∧ x = "edge-" ++ rr.id) →
            ∀ x ∈ (listInsert t.edges ("edge-" ++ r.id)),
              ∃ rr ∈ rels, rr.type = "direct" ∧ x = "edge-" ++ rr.id := by
          intro t ht x hx
          rcases mem_listInsert.mp hx with hx | rfl
          · exact ht x hx
          · exact ⟨r, hrmem, hdirect, rfl⟩
        by_cases hsrc : (r.sourceNode == curr) = true <;>
          by_cases htgt : (r.targetNode == curr) = true <;>
            simp only [hsrc, htgt, if_true, if_false]
        · exact ih _ _ (hstep _ (ih _ _ (hstep _ hst)))
        · exact ih _ _ (hstep _ hst)
        · exact ih _ _ (hstep _ hst)
        · exact hst
      · simp only [hd, if_false]; exact hst

theorem colEdgesAux_id :
    ∀ (L : List ColumnRelationship) (i : Nat) (e : ColEdge), e ∈ colEdgesAux i L →
      ∃ j, j < i + L.length ∧ i ≤ j ∧ e.id = "col-edge-" ++ toString j := by
  intro L
  induction L with
  | nil => intro i e he; exact absurd he (List.not_mem_nil e)
  | cons r L ih =>
    intro i e he
    rw [colEdgesAux] at he
    rcases List.mem_cons.mp he with rfl | he
    · exact ⟨i, by simp, Nat.le_refl i, rfl⟩
    · rcases ih (i + 1) e he with ⟨j, hj1, hj2, hj3⟩
      exact ⟨j, by simp only [List.length_cons]; omega, by omega, hj3⟩

theorem of_mem_columnToEdges {colRels : List ColumnRelationship} {c : String}
    {e : ColEdge} (he : e ∈ columnToEdges colRels c) :
    ∃ j, j < colRels.length ∧ e.id = "col-edge-" ++ toString j := by
  unfold columnToEdges at he
  rcases List.mem_flatMap.mp he with ⟨a, ha, hmem⟩
  have hae : e = a := by
    rcases List.mem_append.mp hmem with h1 | h2
    · by_cases hs : (a.sourceColumn == c) = true
      · simp only [hs, if_true, List.mem_singleton] at h1; exact h1
      · simp [hs] at h1
    · by_cases ht : (a.targetColumn == c) = true
      · simp only [ht, if_true, List.mem_singleton] at h2; exact h2
      · simp [ht] at h2
  subst hae
  rcases colEdgesAux_id colRels 0 e ha with ⟨j, hj1, _, hj3⟩
  exact ⟨j, by simpa using hj1, hj3⟩

theorem colUpTraverse_edges_ok (colRels : List ColumnRelationship) (ap : AllPorts) :
    ∀ (fuel : Nat) (c : String) (s : ColState),
      (∀ x ∈ s.edges, ∃ j, j < colRels.length ∧ x = "col-edge-" ++ toString j) →
      ∀ x ∈ (colUpTraverse colRels ap fuel c s).edges,
        ∃ j, j < colRels.length ∧ x = "col-edge-" ++ toString j := by
  intro fuel
  induction fuel with
  | zero => intro c s hs; exact hs
  | succ fuel ih =>
    intro c s hs
    rw [colUpTraverse]
    by_cases hc : c ∈ s.visited
    · simp only [hc, if_true]; exact hs
    · simp only [hc, if_false]
      have hbase : ∀ t : ColState,
          (∀ x ∈ t.edges, ∃ j, j < colRels.length ∧ x = "col-edge-" ++ toString j) →
          ∀ x ∈ ((columnToEdges colRels c).foldl
            (fun st e =>
              if e.targetColumn == c then
                colUpTraverse colRels ap fuel e.sourceColumn
                  { st with edges := listInsert st.edges e.id }
              else st) t).edges,
            ∃ j, j < colRels.length ∧ x = "col-edge-" ++ toString j := by
        intro t ht
        refine foldl_pres
          (P := fun st : ColState =>
            ∀ x ∈ st.edges, ∃ j, j < colRels.length ∧ x = "col-edge-" ++ toString j)
          ?_ t ht
        intro st e hemem hst
        by_cases hce : (e.targetColumn == c) = true
        · simp only [hce, if_true]
          refine ih _ _ ?_
          intro x hx
          rcases mem_listInsert.mp hx with hx | rfl
          · exact hst x hx
          · exact of_mem_columnToEdges hemem
        · simp only [hce, if_false]; exact hst
      rcases hcp : columnToPort ap c with _ | info
      · exact hbase _ hs
      · exact hbase _ hs

theorem colDownTraverse_edges_ok (colRels : List ColumnRelationship) (ap : AllPorts) :
    ∀ (fuel : Nat) (c : String) (s : ColState),
      (∀ x ∈ s.edges, ∃ j, j < colRels.length ∧ x = "col-edge-" ++ toString j) →
      ∀ x ∈ (colDownTraverse colRels ap fuel c s).edges,
        ∃ j, j < colRels.length ∧ x = "col-edge-" ++ toString j := by
  intro fuel
  induction fuel with
  | zero => intro c s hs; exact hs
  | succ fuel ih =>
    intro c s hs
    rw [colDownTraverse]
    by_cases hc : c ∈ s.visited
    · simp only [hc, if_true]; exact hs
    · simp only [hc, if_false]
      have hbase : ∀ t : ColState,
          (∀ x ∈ t.edges, ∃ j, j < colRels.length ∧ x = "col-edge-" ++ toString j) →
          ∀ x ∈ ((columnToEdges colRels c).foldl
            (fun st e =>
              if e.sourceColumn == c then
                colDownTraverse colRels ap fuel e.targetColumn
                  { st with edges := listInsert st.edges e.id }
              else st) t).edges,
            ∃ j, j < colRels.length ∧ x = "col-edge-" ++ toString j := by
        intro t ht
        refine foldl_pres
          (P := fun st : ColState =>
            ∀ x ∈ st.edges, ∃ j, j < colRels.length ∧ x = "col-edge-" ++ toString j)
          ?_ t ht
        intro st e hemem hst
        by_cases hce : (e.sourceColumn == c) = true
        · simp only [hce, if_true]
          refine ih _ _ ?_
          intro x hx
          rcases mem_listInsert.mp hx with hx | rfl
          · exact hst x hx
          · exact of_mem_columnToEdges hemem
        · simp only [hce, if_false]; exact hst
      rcases hcp : columnToPort ap c with _ | info
      · exact hbase _ hs
      · exact hbase _ hs

/-! ## Claim C9 — edge-identifier form invariant -/

/-- Claim C9: every element of an edges set returned by
`findUpstreamLineage`, `findDownstreamLineage`, `findCompleteLineage`
or `findNodeLineage` is `"edge-"` concatenated with the id of some
relationship of the input list, and every element of a column-level
edges set (`findUpstreamColumnLineage`, `findDownstreamColumnLineage`,
`findCompleteColumnLineage`) is `"col-edge-"` concatenated with the
positional index of a relationship in the column-relationship list. -/
theorem edge_id_form :
    (∀ (p : String) (rels : List Relationship) (nodeList : List Node),
      ∀ x ∈ (findUpstreamLineage p rels nodeList).edges,
        ∃ e ∈ rels, x = "edge-" ++ e.id) ∧
    (∀ (p : String) (rels : List Relationship) (nodeList : List Node),
      ∀ x ∈ (findDownstreamLineage p rels nodeList).edges,
        ∃ e ∈ rels, x = "edge-" ++ e.id) ∧
    (∀ (pid : Option String) (rels : List Relationship) (nodeList : List Node),
      ∀ x ∈ (findCompleteLineage pid rels nodeList).edges,
        ∃ e ∈ rels, x = "edge-" ++ e.id) ∧
    (∀ (nid : Option String) (rels : List Relationship) (nodeList : List Node),
      ∀ x ∈ (findNodeLineage nid rels nodeList).edges,
        ∃ e ∈ rels, x = "edge-" ++ e.id) ∧
    (∀ (c : String) (colRels : List ColumnRelationship) (ap : AllPorts),
      ∀ x ∈ (findUpstreamColumnLineage c colRels ap).edges,
        ∃ j, j < colRels.length ∧ x = "col-edge-" ++ toString j) ∧
    (∀ (c : String) (colRels : List ColumnRelationship) (ap : AllPorts),
      ∀ x ∈ (findDownstreamColumnLineage c colRels ap).edges,
        ∃ j, j < colRels.length ∧ x = "col-edge-" ++ toString j) ∧
    (∀ (cid : Option String) (colRels : List ColumnRelationship) (ap : AllPorts),
      ∀ x ∈ (findCompleteColumnLineage cid colRels ap).edges,
        ∃ j, j < colRels.length ∧ x = "col-edge-" ++ toString j) := by
  have hup : ∀ (p : String) (rels : List Relationship) (nodeList : List Node),
      ∀ x ∈ (findUpstreamLineage p rels nodeList).edges,
        ∃ e ∈ rels, x = "edge-" ++ e.id := by
    intro p rels nodeList x hx
    rcases upstream_edge_form rels nodeList p x hx with ⟨e, he, _, heq, _⟩
    exact ⟨e, he, heq⟩
  have hdown : ∀ (p : String) (rels : List Relationship) (nodeList : List Node),
      ∀ x ∈ (findDownstreamLineage p rels nodeList).edges,
        ∃ e ∈ rels, x = "edge-" ++ e.id := by
    intro p rels nodeList x hx
    rcases downstream_edge_form rels nodeList p x hx with ⟨e, he, _, heq, _⟩
    exact ⟨e, he, heq⟩
  have hcolup : ∀ (c : String) (colRels : List ColumnRelationship) (ap : AllPorts),
      ∀ x ∈ (findUpstreamColumnLineage c colRels ap).edges,
        ∃ j, j < colRels.length ∧ x = "col-edge-" ++ toString j := by
    intro c colRels ap x hx
    exact colUpTraverse_edges_ok colRels ap (columnFuel colRels) c ⟨[], [], [], []⟩
      (by intro y hy; exact absurd hy (List.not_mem_nil y)) x hx
  have hcoldown : ∀ (c : String) (colRels : List ColumnRelationship) (ap : AllPorts),
      ∀ x ∈ (findDownstreamColumnLineage c colRels ap).edges,
        ∃ j, j < colRels.length ∧ x = "col-edge-" ++ toString j := by
    intro c colRels ap x hx
    exact colDownTraverse_edges_ok colRels ap (columnFuel colRels) c ⟨[], [], [], []⟩
      (by intro y hy; exact absurd hy (List.not_mem_nil y)) x hx
  refine ⟨hup, hdown, ?_, ?_, hcolup, hcoldown, ?_⟩
  · intro pid rels nodeList x hx
    by_cases hf : isFalsyId pid = true
    · simp only [findCompleteLineage, hf, if_true] at hx
      exact absurd hx (List.not_mem_nil x)
    · simp only [findCompleteLineage] at hx
      rw [if_neg hf] at hx
      rcases mem_setUnion.mp hx with hx | hx
      · exact hup _ rels nodeList x hx
      · exact hdown _ rels nodeList x hx
  · intro nid rels nodeList x hx
    by_cases hf : isFalsyId nid = true
    · simp only [findNodeLineage, hf, if_true] at hx
      exact absurd hx (List.not_mem_nil x)
    · simp only [findNodeLineage] at hx
      rw [if_neg hf] at hx
      rcases nlTraverse_edges_ok rels (nodeLineageFuel (nid.getD "") rels) (nid.getD "")
        ⟨[], [nid.getD ""], []⟩
        (by intro y hy; exact absurd hy (List.not_mem_nil y)) x hx with ⟨e, he, _, heq⟩
      exact ⟨e, he, heq⟩
  · intro cid colRels ap x hx
    by_cases hf : isFalsyId cid = true
    · simp only [findCompleteColumnLineage, hf, if_true] at hx
      exact absurd hx (List.not_mem_nil x)
    · simp only [findCompleteColumnLineage] at hx
      rw [if_neg hf] at hx
      rcases mem_setUnion.mp hx with hx | hx
      · exact hcolup _ colRels ap x hx
      · exact hcoldown _ colRels ap x hx

/-- A single direct relationship, for exercising `findNodeLineage`. -/
def directRel : Relationship := ⟨"d1", "direct", "A", "", "B", ""⟩

/-- A single column relationship `c1 → c2`. -/
def colRelW : ColumnRelationship := ⟨"c1", "c2"⟩

/-- An `allPorts` argument with no ports at all. -/
def apEmpty : AllPorts := AllPorts.mk none [] []

/-- Witness for Claim C9: each edge-producing entry point evaluated on
a concrete graph, with the membership hypothesis discharged by
computation. -/
theorem edge_id_form_witness :
    ("edge-r1" ∈ (findUpstreamLineage "P2" dangRels dangNodes).edges ∧
      ∃ e ∈ dangRels, "edge-r1" = "edge-" ++ e.id) ∧
    ("edge-r1" ∈ (findDownstreamLineage "P1" loopRels loopNodes).edges ∧
      ∃ e ∈ loopRels, "edge-r1" = "edge-" ++ e.id) ∧
    ("edge-r1" ∈ (findCompleteLineage (some "P1") loopRels loopNodes).edges ∧
      ∃ e ∈ loopRels, "edge-r1" = "edge-" ++ e.id) ∧
    ("edge-d1" ∈ (findNodeLineage (some "A") [directRel] []).edges ∧
      ∃ e ∈ [directRel], "edge-d1" = "edge-" ++ e.id) ∧
    ("col-edge-0" ∈ (findUpstreamColumnLineage "c2" [colRelW] apEmpty).edges ∧
      ∃ j, j < [colRelW].length ∧ "col-edge-0" = "col-edge-" ++ toString j) ∧
    ("col-edge-0" ∈ (findDownstreamColumnLineage "c1" [colRelW] apEmpty).edges ∧
      ∃ j, j < [colRelW].length ∧ "col-edge-0" = "col-edge-" ++ toString j) ∧
    ("col-edge-0" ∈ (findCompleteColumnLineage (some "c1") [colRelW] apEmpty).edges ∧
      ∃ j, j < [colRelW].length ∧ "col-edge-0" = "col-edge-" ++ toString j) :=
  ⟨⟨by decide, edge_id_form.1 "P2" dangRels dangNodes "edge-r1" (by decide)⟩,
   ⟨by decide, edge_id_form.2.1 "P1" loopRels loopNodes "edge-r1" (by decide)⟩,
   ⟨by decide, edge_id_form.2.2.1 (some "P1") loopRels loopNodes "edge-r1" (by decide)⟩,
   ⟨by decide, edge_id_form.2.2.2.1 (some "A") [directRel] [] "edge-d1" (by decide)⟩,
   ⟨by decide, edge_id_form.2.2.2.2.1 "c2" [colRelW] apEmpty "col-edge-0" (by decide)⟩,
   ⟨by decide, edge_id_form.2.2.2.2.2.1 "c1" [colRelW] apEmpty "col-edge-0" (by decide)⟩,
   ⟨by decide,
    edge_id_form.2.2.2.2.2.2 (some "c1") [colRelW] apEmpty "col-edge-0" (by decide)⟩⟩

/-! ## Bounding the traversal result sets (Claim C5 infrastructure) -/

theorem of_mem_findInternalRelatedPorts {portId nodeId : String} {nodeList : List Node}
    {rp : String} (h : rp ∈ findInternalRelatedPorts portId nodeId nodeList) :
    ∃ n ∈ nodeList, ∃ pt ∈ n.data.inputs ++ n.data.outputs, rp ∈ pt.relatedPorts := by
  unfold findInternalRelatedPorts at h
  rcases hd : nodeDataGet nodeList nodeId with _ | data
  · rw [hd] at h; exact absurd h (List.not_mem_nil rp)
  · rw [hd] at h
    dsimp only at h
    unfold nodeDataGet at hd
    rcases hf : nodeList.reverse.find? (fun n => n.id == nodeId) with _ | n
    · rw [hf] at hd; exact absurd hd (by simp)
    · rw [hf] at hd
      have hn : n ∈ nodeList := List.mem_reverse.mp (List.mem_of_find?_eq_some hf)
      have hdata : n.data = data := by simpa using hd
      refine ⟨n, hn, ?_⟩
      rcases hsp : data.inputs.find? (fun p => p.id == portId) with _ | sp
      · rw [hsp] at h
        rcases hsp2 : data.outputs.find? (fun p => p.id == portId) with _ | sp2
        · rw [hsp2] at h; exact absurd h (List.not_mem_nil rp)
        · rw [hsp2] at h
          exact ⟨sp2, by
            rw [hdata]
            exact List.mem_append.mpr (Or.inr (List.mem_of_find?_eq_some hsp2)), h⟩
      · rw [hsp] at h
        exact ⟨sp, by
          rw [hdata]
          exact List.mem_append.mpr (Or.inl (List.mem_of_find?_eq_some hsp)), h⟩

theorem relatedPorts_sub_universe {rels : List Relationship} {nodeList : List Node}
    {portId nodeId rp : String}
    (h : rp ∈ findInternalRelatedPorts portId nodeId nodeList) :
    rp ∈ portUniverse rels nodeList := by
  rcases of_mem_findInternalRelatedPorts h with ⟨n, hn, pt, hpt, hrp⟩
  unfold portUniverse
  refine List.mem_append.mpr (Or.inl ?_)
  exact List.mem_flatMap.mpr ⟨n, hn, List.mem_flatMap.mpr ⟨pt, hpt, hrp⟩⟩

theorem sourcePort_sub_universe {rels : List Relationship} {nodeList : List Node}
    {e : Relationship} (he : e ∈ rels) : e.sourcePort ∈ portUniverse rels nodeList := by
  unfold portUniverse
  exact List.mem_append.mpr (Or.inr (List.mem_flatMap.mpr ⟨e, he, by simp⟩))

theorem targetPort_sub_universe {rels : List Relationship} {nodeList : List Node}
    {e : Relationship} (he : e ∈ rels) : e.targetPort ∈ portUniverse rels nodeList := by
  unfold portUniverse
  exact List.mem_append.mpr (Or.inr (List.mem_flatMap.mpr ⟨e, he, by simp⟩))

theorem upTraverse_ports_nodup (rels : List Relationship) (nodeList : List Node) :
    ∀ (fuel : Nat) (p : String) (s : LinState), s.ports.Nodup →
      (upTraverse rels nodeList fuel p s).ports.Nodup := by
  intro fuel
  induction fuel with
  | zero => intro p s hs; exact hs
  | succ fuel ih =>
    intro p s hs
    rw [upTraverse]
    by_cases hp : p ∈ s.visited
    · simp only [hp, if_true]; exact hs
    · simp only [hp, if_false]
      have hs1 : (listInsert s.ports p).Nodup := nodup_listInsert p hs
      rcases hpn : portToNode nodeList p with _ | info
      · exact hs1
      · have hrel : ∀ t : LinState, t.ports.Nodup →
            ((findInternalRelatedPorts p info.nodeId nodeList).foldl
              (fun st rp =>
                upTraverse rels nodeList fuel rp
                  { st with ports := listInsert st.ports rp }) t).ports.Nodup := by
          intro t ht
          refine foldl_pres (P := fun st : LinState => st.ports.Nodup) ?_ t ht
          intro st rp _ hst
          exact ih _ _ (nodup_listInsert rp hst)
        have hedge : ∀ t : LinState, t.ports.Nodup →
            ((portToEdges rels p).foldl
              (fun st e =>
                if e.type == "port" && e.targetPort == p then
                  upTraverse rels nodeList fuel e.sourcePort
                    { st with edges := listInsert st.edges ("edge-" ++ e.id) }
                else st) t).ports.Nodup := by
          intro t ht
          refine foldl_pres (P := fun st : LinState => st.ports.Nodup) ?_ t ht
          intro st e _ hst
          by_cases hce : (e.type == "port" && e.targetPort == p) = true
          · simp only [hce, if_true]; exact ih _ _ hst
          · simp only [hce, if_false]; exact hst
        by_cases ho : (info.type == "output") = true <;>
          by_cases hi : (info.type == "input") = true <;>
            simp only [ho, hi, if_true, if_false]
        · exact hedge _ (hrel _ hs1)
        · exact hrel _ hs1
        · exact hedge _ hs1
        · exact hs1

theorem downTraverse_ports_nodup (rels : List Relationship) (nodeList : List Node) :
    ∀ (fuel : Nat) (p : String) (s : LinState), s.ports.Nodup →
      (downTraverse rels nodeList fuel p s).ports.Nodup := by
  intro fuel
  induction fuel with
  | zero => intro p s hs; exact hs
  | succ fuel ih =>
    intro p s hs
    rw [downTraverse]
    by_cases hp : p ∈ s.visited
    · simp only [hp, if_true]; exact hs
    · simp only [hp, if_false]
      have hs1 : (listInsert s.ports p).Nodup := nodup_listInsert p hs
      rcases hpn : portToNode nodeList p with _ | info
      · exact hs1
      · have hrel : ∀ t : LinState, t.ports.Nodup →
            ((findInternalRelatedPorts p info.nodeId nodeList).foldl
              (fun st rp =>
                downTraverse rels nodeList fuel rp
                  { st with ports := listInsert st.ports rp }) t).ports.Nodup := by
          intro t ht
          refine foldl_pres (P := fun st : LinState => st.ports.Nodup) ?_ t ht
          intro st rp _ hst
          exact ih _ _ (nodup_listInsert rp hst)
        have hedge : ∀ t : LinState, t.ports.Nodup →
            ((portToEdges rels p).foldl
              (fun st e =>
                if e.type == "port" && e.sourcePort == p then
                  downTraverse rels nodeList fuel e.targetPort
                    { st with edges := listInsert st.edges ("edge-" ++ e.id) }
                else st) t).ports.Nodup := by
          intro t ht
          refine foldl_pres (P := fun st : LinState => st.ports.Nodup) ?_ t ht
          intro st e _ hst
          by_cases hce : (e.type == "port" && e.sourcePort == p) = true
          · simp only [hce, if_true]; exact ih _ _ hst
          · simp only [hce, if_false]; exact hst
        by_cases hi : (info.type == "input") = true <;>
          by_cases ho : (info.type == "output") = true <;>
            simp only [ho, hi, if_true, if_false]
        · exact hedge _ (hrel _ hs1)
        · exact hrel _ hs1
        · exact hedge _ hs1
        · exact hs1

theorem upTraverse_ports_sub (rels : List Relationship) (nodeList : List Node)
    (X : List String)
    (hX1 : ∀ portId nodeId rp, rp ∈ findInternalRelatedPorts portId nodeId nodeList →
      rp ∈ X)
    (hX2 : ∀ e ∈ rels, e.sourcePort ∈ X) :
    ∀ (fuel : Nat) (p : String) (s : LinState), p ∈ X → s.ports ⊆ X →
      (upTraverse rels nodeList fuel p s).ports ⊆ X := by
  intro fuel
  induction fuel with
  | zero => intro p s _ hs; exact hs
  | succ fuel ih =>
    intro p s hpX hs
    rw [upTraverse]
    by_cases hp : p ∈ s.visited
    · simp only [hp, if_true]; exact hs
    · simp only [hp, if_false]
      have hs1 : listInsert s.ports p ⊆ X := by
        intro x hx
        rcases mem_listInsert.mp hx with hx | rfl
        · exact hs hx
        · exact hpX
      rcases hpn : portToNode nodeList p with _ | info
      · exact hs1
      · have hrel : ∀ t : LinState, t.ports ⊆ X →
            ((findInternalRelatedPorts p info.nodeId nodeList).foldl
              (fun st rp =>
                upTraverse rels nodeList fuel rp
                  { st with ports := listInsert st.ports rp }) t).ports ⊆ X := by
          intro t ht
          refine foldl_pres (P := fun st : LinState => st.ports ⊆ X) ?_ t ht
          intro st rp hrp hst
          have hrpX : rp ∈ X := hX1 p info.nodeId rp hrp
          refine ih rp _ hrpX ?_
          intro x hx
          rcases mem_listInsert.mp hx with hx | rfl
          · exact hst hx
          · exact hrpX
        have hedge : ∀ t : LinState, t.ports ⊆ X →
            ((portToEdges rels p).foldl
              (fun st e =>
                if e.type == "port" && e.targetPort == p then
                  upTraverse rels nodeList fuel e.sourcePort
                    { st with edges := listInsert st.edges ("edge-" ++ e.id) }
                else st) t).ports ⊆ X := by
          intro t ht
          refine foldl_pres (P := fun st : LinState => st.ports ⊆ X) ?_ t ht
          intro st e hemem hst
          by_cases hce : (e.type == "port" && e.targetPort == p) = true
          · simp only [hce, if_true]
            exact ih e.sourcePort _ (hX2 e (of_mem_portToEdges hemem).1) hst
          · simp only [hce, if_false]; exact hst
        by_cases ho : (info.type == "output") = true <;>
          by_cases hi : (info.type == "input") = true <;>
            simp only [ho, hi, if_true, if_false]
        · exact hedge _ (hrel _ hs1)
        · exact hrel _ hs1
        · exact hedge _ hs1
        · exact hs1

theorem downTraverse_ports_sub (rels : List Relationship) (nodeList : List Node)
    (X : List String)
    (hX1 : ∀ portId nodeId rp, rp ∈ findInternalRelatedPorts portId nodeId nodeList →
      rp ∈ X)
    (hX2 : ∀ e ∈ rels, e.targetPort ∈ X) :
    ∀ (fuel : Nat) (p : String) (s : LinState), p ∈ X → s.ports ⊆ X →
      (downTraverse rels nodeList fuel p s).ports ⊆ X := by
  intro fuel
  induction fuel with
  | zero => intro p s _ hs; exact hs
  | succ fuel ih =>
    intro p s hpX hs
    rw [downTraverse]
    by_cases hp : p ∈ s.visited
    · simp only [hp, if_true]; exact hs
    · simp only [hp, if_false]
      have hs1 : listInsert s.ports p ⊆ X := by
        intro x hx
        rcases mem_listInsert.mp hx with hx | rfl
        · exact hs hx
        · exact hpX
      rcases hpn : portToNode nodeList p with _ | info
      · exact hs1
      · have hrel : ∀ t : LinState, t.ports ⊆ X →
            ((findInternalRelatedPorts p info.nodeId nodeList).foldl
              (fun st rp =>
                downTraverse rels nodeList fuel rp
                  { st with ports := listInsert st.ports rp }) t).ports ⊆ X := by
          intro t ht
          refine foldl_pres (P := fun st : LinState => st.ports ⊆ X) ?_ t ht
          intro st rp hrp hst
          have hrpX : rp ∈ X := hX1 p info.nodeId rp hrp
          refine ih rp _ hrpX ?_
          intro x hx
          rcases mem_listInsert.mp hx with hx | rfl
          · exact hst hx
          · exact hrpX
        have hedge : ∀ t : LinState, t.ports ⊆ X →
            ((portToEdges rels p).foldl
              (fun st e =>
                if e.type == "port" && e.sourcePort == p then
                  downTraverse rels nodeList fuel e.targetPort
                    { st with edges := listInsert st.edges ("edge-" ++ e.id) }
                else st) t).ports ⊆ X := by
          intro t ht
          refine foldl_pres (P := fun st : LinState => st.ports ⊆ X) ?_ t ht
          intro st e hemem hst
          by_cases hce : (e.type == "port" && e.sourcePort == p) = true
          · simp only [hce, if_true]
            exact ih e.targetPort _ (hX2 e (of_mem_portToEdges hemem).1) hst
          · simp only [hce, if_false]; exact hst
        by_cases hi : (info.type == "input") = true <;>
          by_cases ho : (info.type == "output") = true <;>
            simp only [ho, hi, if_true, if_false]
        · exact hedge _ (hrel _ hs1)
        · exact hrel _ hs1
        · exact hedge _ hs1
        · exact hs1

theorem mem_colEdgesAux_of_mem_columnToEdges {colRels : List ColumnRelationship}
    {c : String} {e : ColEdge} (he : e ∈ columnToEdges colRels c) :
    e ∈ colEdgesAux 0 colRels := by
  unfold columnToEdges at he
  rcases List.mem_flatMap.mp he with ⟨a, ha, hmem⟩
  have hae : e = a := by
    rcases List.mem_append.mp hmem with h1 | h2
    · by_cases hs : (a.sourceColumn == c) = true
      · simp only [hs, if_true, List.mem_singleton] at h1; exact h1
      · simp [hs] at h1
    · by_cases ht : (a.targetColumn == c) = true
      · simp only [ht, if_true, List.mem_singleton] at h2; exact h2
      · simp [ht] at h2
  subst hae
  exact ha

theorem colEdgesAux_endpoints :
    ∀ (L : List ColumnRelationship) (i : Nat) (e : ColEdge), e ∈ colEdgesAux i L →
      ∃ r ∈ L, e.sourceColumn = r.sourceColumn ∧ e.targetColumn = r.targetColumn := by
  intro L
  induction L with
  | nil => intro i e he; exact absurd he (List.not_mem_nil e)
  | cons r L ih =>
    intro i e he
    rw [colEdgesAux] at he
    rcases List.mem_cons.mp he with rfl | he
    · exact ⟨r, by simp, rfl, rfl⟩
    · rcases ih (i + 1) e he with ⟨r', hr', h1, h2⟩
      exact ⟨r', by simp [hr'], h1, h2⟩

theorem colUpTraverse_columns_nodup (colRels : List ColumnRelationship) (ap : AllPorts) :
    ∀ (fuel : Nat) (c : String) (s : ColState), s.columns.Nodup →
      (colUpTraverse colRels ap fuel c s).columns.Nodup := by
  intro fuel
  induction fuel with
  | zero => intro c s hs; exact hs
  | succ fuel ih =>
    intro c s hs
    rw [colUpTraverse]
    by_cases hc : c ∈ s.visited
    · simp only [hc, if_true]; exact hs
    · simp only [hc, if_false]
      have hs1 : (listInsert s.columns c).Nodup := nodup_listInsert c hs
      have hbase : ∀ t : ColState, t.columns.Nodup →
          ((columnToEdges colRels c).foldl
            (fun st e =>
              if e.targetColumn == c then
                colUpTraverse colRels ap fuel e.sourceColumn
                  { st with edges := listInsert st.edges e.id }
              else st) t).columns.Nodup := by
        intro t ht
        refine foldl_pres (P := fun st : ColState => st.columns.Nodup) ?_ t ht
        intro st e _ hst
        by_cases hce : (e.targetColumn == c) = true
        · simp only [hce, if_true]; exact ih _ _ hst
        · simp only [hce, if_false]; exact hst
      rcases hcp : columnToPort ap c with _ | info
      · exact hbase _ hs1
      · exact hbase _ hs1

theorem colDownTraverse_columns_nodup (colRels : List ColumnRelationship) (ap : AllPorts) :
    ∀ (fuel : Nat) (c : String) (s : ColState), s.columns.Nodup →
      (colDownTraverse colRels ap fuel c s).columns.Nodup := by
  intro fuel
  induction fuel with
  | zero => intro c s hs; exact hs
  | succ fuel ih =>
    intro c s hs
    rw [colDownTraverse]
    by_cases hc : c ∈ s.visited
    · simp only [hc, if_true]; exact hs
    · simp only [hc, if_false]
      have hs1 : (listInsert s.columns c).Nodup := nodup_listInsert c hs
      have hbase : ∀ t : ColState, t.columns.Nodup →
          ((columnToEdges colRels c).foldl
            (fun st e =>
              if e.sourceColumn == c then
                colDownTraverse colRels ap fuel e.targetColumn
                  { st with edges := listInsert st.edges e.id }
              else st) t).columns.Nodup := by
        intro t ht
        refine foldl_pres (P := fun st : ColState => st.columns.Nodup) ?_ t ht
        intro st e _ hst
        by_cases hce : (e.sourceColumn == c) = true
        · simp only [hce, if_true]; exact ih _ _ hst
        · simp only [hce, if_false]; exact hst
      rcases hcp : columnToPort ap c with _ | info
      · exact hbase _ hs1
      · exact hbase _ hs1

theorem colUpTraverse_columns_sub (colRels : List ColumnRelationship) (ap : AllPorts)
    (X : List String) (hX : ∀ r ∈ colRels, r.sourceColumn ∈ X) :
    ∀ (fuel : Nat) (c : String) (s : ColState), c ∈ X → s.columns ⊆ X →
      (colUpTraverse colRels ap fuel c s).columns ⊆ X := by
  intro fuel
  induction fuel with
  | zero => intro c s _ hs; exact hs
  | succ fuel ih =>
    intro c s hcX hs
    rw [colUpTraverse]
    by_cases hc : c ∈ s.visited
    · simp only [hc, if_true]; exact hs
    · simp only [hc, if_false]
      have hs1 : listInsert s.columns c ⊆ X := by
        intro x hx
        rcases mem_listInsert.mp hx with hx | rfl
        · exact hs hx
        · exact hcX
      have hbase : ∀ t : ColState, t.columns ⊆ X →
          ((columnToEdges colRels c).foldl
            (fun st e =>
              if e.targetColumn == c then
                colUpTraverse colRels ap fuel e.sourceColumn
                  { st with edges := listInsert st.edges e.id }
              else st) t).columns ⊆ X := by
        intro t ht
        refine foldl_pres (P := fun st : ColState => st.columns ⊆ X) ?_ t ht
        intro st e hemem hst
        by_cases hce : (e.targetColumn == c) = true
        · simp only [hce, if_true]
          rcases colEdgesAux_endpoints colRels 0 e
            (mem_colEdgesAux_of_mem_columnToEdges hemem) with ⟨r, hr, hsc, _⟩
          refine ih e.sourceColumn _ ?_ hst
          rw [hsc]
          exact hX r hr
        · simp only [hce, if_false]; exact hst
      rcases hcp : columnToPort ap c with _ | info
      · exact hbase _ hs1
      · exact hbase _ hs1

theorem colDownTraverse_columns_sub (colRels : List ColumnRelationship) (ap : AllPorts)
    (X : List String) (hX : ∀ r ∈ colRels, r.targetColumn ∈ X) :
    ∀ (fuel : Nat) (c : String) (s : ColState), c ∈ X → s.columns ⊆ X →
      (colDownTraverse colRels ap fuel c s).columns ⊆ X := by
  intro fuel
  induction fuel with
  | zero => intro c s _ hs; exact hs
  | succ fuel ih =>
    intro c s hcX hs
    rw [colDownTraverse]
    by_cases hc : c ∈ s.visited
    · simp only [hc, if_true]; exact hs
    · simp only [hc, if_false]
      have hs1 : listInsert s.columns c ⊆ X := by
        intro x hx
        rcases mem_listInsert.mp hx with hx | rfl
        · exact hs hx
        · exact hcX
      have hbase : ∀ t : ColState, t.columns ⊆ X →
          ((columnToEdges colRels c).foldl
            (fun st e =>
              if e.sourceColumn == c then
                colDownTraverse colRels ap fuel e.targetColumn
                  { st with edges := listInsert st.edges e.id }
              else st) t).columns ⊆ X := by
        intro t ht
        refine foldl_pres (P := fun st : ColState => st.columns ⊆ X) ?_ t ht
        intro st e hemem hst
        by_cases hce : (e.sourceColumn == c) = true
        · simp only [hce, if_true]
          rcases colEdgesAux_endpoints colRels 0 e
            (mem_colEdgesAux_of_mem_columnToEdges hemem) with ⟨r, hr, _, htc⟩
          refine ih e.targetColumn _ ?_ hst
          rw [htc]
          exact hX r hr
        · simp only [hce, if_false]; exact hst
      rcases hcp : columnToPort ap c with _ | info
      · exact hbase _ hs1
      · exact hbase _ hs1

theorem nodup_subset_length_le {l m : List String} (hn : l.Nodup) (hs : l ⊆ m) :
    l.length ≤ m.dedup.length := by
  have h1 : l.toFinset.card = l.length := List.toFinset_card_of_nodup hn
  have h2 : m.dedup.toFinset.card = m.dedup.length :=
    List.toFinset_card_of_nodup m.nodup_dedup
  have h3 : l.toFinset ⊆ m.dedup.toFinset := by
    intro a ha
    rw [List.mem_toFinset] at ha ⊢
    rw [List.mem_dedup]
    exact hs ha
  calc l.length = l.toFinset.card := h1.symm
    _ ≤ m.dedup.toFinset.card := Finset.card_le_card h3
    _ = m.dedup.length := h2

/-! ## Claim C5 — cycle-safe termination and bounded result sets -/

/-- Claim C5: all four directional traversals are total functions in
this embedding (they terminate on every input graph, cyclic
related-port declarations and cyclic relationship lists included),
each port or column is collected at most once (the per-call visited
set makes the returned port/column list duplicate-free), the returned
sets are finite, and the ports (columns) set is bounded by the total
number of distinct candidate ids of the input: every collected id is
the start id or comes from the input's related-port lists and
relationship endpoints, so its size is at most the number of distinct
such ids. -/
theorem traversal_bounded :
    (∀ (p : String) (rels : List Relationship) (nodeList : List Node),
      (findUpstreamLineage p rels nodeList).ports.Nodup ∧
      (findUpstreamLineage p rels nodeList).ports ⊆ p :: portUniverse rels nodeList ∧
      (findUpstreamLineage p rels nodeList).ports.length ≤
        (p :: portUniverse rels nodeList).dedup.length) ∧
    (∀ (p : String) (rels : List Relationship) (nodeList : List Node),
      (findDownstreamLineage p rels nodeList).ports.Nodup ∧
      (findDownstreamLineage p rels nodeList).ports ⊆ p :: portUniverse rels nodeList ∧
      (findDownstreamLineage p rels nodeList).ports.length ≤
        (p :: portUniverse rels nodeList).dedup.length) ∧
    (∀ (c : String) (colRels : List ColumnRelationship) (ap : AllPorts),
      (findUpstreamColumnLineage c colRels ap).columns.Nodup ∧
      (findUpstreamColumnLineage c colRels ap).columns ⊆ c :: columnUniverse colRels ∧
      (findUpstreamColumnLineage c colRels ap).columns.length ≤
        (c :: columnUniverse colRels).dedup.length) ∧
    (∀ (c : String) (colRels : List ColumnRelationship) (ap : AllPorts),
      (findDownstreamColumnLineage c colRels ap).columns.Nodup ∧
      (findDownstreamColumnLineage c colRels ap).columns ⊆ c :: columnUniverse colRels ∧
      (findDownstreamColumnLineage c colRels ap).columns.length ≤
        (c :: columnUniverse colRels).dedup.length) := by
  refine ⟨?_, ?_, ?_, ?_⟩
  · intro p rels nodeList
    have hnodup : (findUpstreamLineage p rels nodeList).ports.Nodup := by
      simp only [findUpstreamLineage]
      exact upTraverse_ports_nodup rels nodeList _ p ⟨[], [], [], []⟩ List.nodup_nil
    have hsub : (findUpstreamLineage p rels nodeList).ports ⊆
        p :: portUniverse rels nodeList := by
      simp only [findUpstreamLineage]
      refine upTraverse_ports_sub rels nodeList (p :: portUniverse rels nodeList)
        ?_ ?_ _ p ⟨[], [], [], []⟩ (by simp) ?_
      · intro portId nodeId rp hrp
        exact List.mem_cons.mpr (Or.inr (relatedPorts_sub_universe hrp))
      · intro e he
        exact List.mem_cons.mpr (Or.inr (sourcePort_sub_universe he))
      · intro x hx
        exact absurd hx (List.not_mem_nil x)
    exact ⟨hnodup, hsub, nodup_subset_length_le hnodup hsub⟩
  · intro p rels nodeList
    have hnodup : (findDownstreamLineage p rels nodeList).ports.Nodup := by
      simp only [findDownstreamLineage]
      exact downTraverse_ports_nodup rels nodeList _ p ⟨[], [], [], []⟩ List.nodup_nil
    have hsub : (findDownstreamLineage p rels nodeList).ports ⊆
        p :: portUniverse rels nodeList := by
      simp only [findDownstreamLineage]
      refine downTraverse_ports_sub rels nodeList (p :: portUniverse rels nodeList)
        ?_ ?_ _ p ⟨[], [], [], []⟩ (by simp) ?_
      · intro portId nodeId rp hrp
        exact List.mem_cons.mpr (Or.inr (relatedPorts_sub_universe hrp))
      · intro e he
        exact List.mem_cons.mpr (Or.inr (targetPort_sub_universe he))
      · intro x hx
        exact absurd hx (List.not_mem_nil x)
    exact ⟨hnodup, hsub, nodup_subset_length_le hnodup hsub⟩
  · intro c colRels ap
    have hnodup : (findUpstreamColumnLineage c colRels ap).columns.Nodup := by
      simp only [findUpstreamColumnLineage]
      exact colUpTraverse_columns_nodup colRels ap _ c ⟨[], [], [], []⟩ List.nodup_nil
    have hsub : (findUpstreamColumnLineage c colRels ap).columns ⊆
        c :: columnUniverse colRels := by
      simp only [findUpstreamColumnLineage]
      refine colUpTraverse_columns_sub colRels ap (c :: columnUniverse colRels)
        ?_ _ c ⟨[], [], [], []⟩ (by simp) ?_
      · intro r hr
        refine List.mem_cons.mpr (Or.inr ?_)
        unfold columnUniverse
        exact List.mem_flatMap.mpr ⟨r, hr, by simp⟩
      · intro x hx
        exact absurd hx (List.not_mem_nil x)
    exact ⟨hnodup, hsub, nodup_subset_length_le hnodup hsub⟩
  · intro c colRels ap
    have hnodup : (findDownstreamColumnLineage c colRels ap).columns.Nodup := by
      simp only [findDownstreamColumnLineage]
      exact colDownTraverse_columns_nodup colRels ap _ c ⟨[], [], [], []⟩ List.nodup_nil
    have hsub : (findDownstreamColumnLineage c colRels ap).columns ⊆
        c :: columnUniverse colRels := by
      simp only [findDownstreamColumnLineage]
      refine colDownTraverse_columns_sub colRels ap (c :: columnUniverse colRels)
        ?_ _ c ⟨[], [], [], []⟩ (by simp) ?_
      · intro r hr
        refine List.mem_cons.mpr (Or.inr ?_)
        unfold columnUniverse
        exact List.mem_flatMap.mpr ⟨r, hr, by simp⟩
      · intro x hx
        exact absurd hx (List.not_mem_nil x)
    exact ⟨hnodup, hsub, nodup_subset_length_le hnodup hsub⟩

/-! ## Claim C8 infrastructure — node lineage as undirected flood fill -/

/-- Undirected adjacency between node ids induced by the `"direct"`
relationships of the input list. -/
def nlAdj (rels : List Relationship) (a b : String) : Prop :=
  ∃ r ∈ rels, r.type = "direct" ∧
    ((r.sourceNode = a ∧ r.targetNode = b) ∨ (r.targetNode = a ∧ r.sourceNode = b))

/-- Reachability in the undirected direct-relationship graph. -/
def nlReach (rels : List Relationship) (a b : String) : Prop :=
  Relation.ReflTransGen (nlAdj rels) a b

/-- Growth order on node-lineage states. -/
def NodeLE (s t : NodeLinState) : Prop :=
  s.visited ⊆ t.visited ∧ s.nodes ⊆ t.nodes ∧ s.edges ⊆ t.edges

theorem nodeLE_refl {s : NodeLinState} : NodeLE s s :=
  ⟨fun _ h => h, fun _ h => h, fun _ h => h⟩

theorem nodeLE_trans {a b c : NodeLinState} (h1 : NodeLE a b) (h2 : NodeLE b c) :
    NodeLE a c :=
  ⟨fun _ h => h2.1 (h1.1 h), fun _ h => h2.2.1 (h1.2.1 h), fun _ h => h2.2.2 (h1.2.2 h)⟩

theorem nlTraverse_le (rels : List Relationship) :
    ∀ (fuel : Nat) (curr : String) (s : NodeLinState),
      NodeLE s (nlTraverse rels fuel curr s) := by
  intro fuel
  induction fuel with
  | zero => intro curr s; exact nodeLE_refl
  | succ fuel ih =>
    intro curr s
    rw [nlTraverse]
    by_cases hc : curr ∈ s.visited
    · simp only [hc, if_true]; exact nodeLE_refl
    · simp only [hc, if_false]
      refine nodeLE_trans (b := { s with visited := listInsert s.visited curr })
        ⟨subset_listInsert _ _, (fun _ h => h), (fun _ h => h)⟩ ?_
      refine foldl_rel (fun s => nodeLE_refl) (fun h1 h2 => nodeLE_trans h1 h2) ?_ _
      intro st r _
      by_cases hd : (r.type == "direct") = true
      · simp only [hd, if_true]
        by_cases hsrc : (r.sourceNode == curr) = true <;>
          by_cases htgt : (r.targetNode == curr) = true <;>
            simp only [hsrc, htgt, if_true, if_false]
        · refine nodeLE_trans (b := nlTraverse rels fuel r.targetNode
            { st with edges := listInsert st.edges ("edge-" ++ r.id),
                      nodes := listInsert st.nodes r.targetNode }) ?_ ?_
          · exact nodeLE_trans
              (b := { st with edges := listInsert st.edges ("edge-" ++ r.id),
                              nodes := listInsert st.nodes r.targetNode })
              ⟨(fun _ h => h), subset_listInsert _ _, subset_listInsert _ _⟩ (ih _ _)
          · generalize nlTraverse rels fuel r.targetNode
              { st with edges := listInsert st.edges ("edge-" ++ r.id),
                        nodes := listInsert st.nodes r.targetNode } = st1
            exact nodeLE_trans
              (b := { st1 with edges := listInsert st1.edges ("edge-" ++ r.id),
                               nodes := listInsert st1.nodes r.sourceNode })
              ⟨(fun _ h => h), subset_listInsert _ _, subset_listInsert _ _⟩ (ih _ _)
        · exact nodeLE_trans
            (b := { st with edges := listInsert st.edges ("edge-" ++ r.id),
                            nodes := listInsert st.nodes r.targetNode })
            ⟨(fun _ h => h), subset_listInsert _ _, subset_listInsert _ _⟩ (ih _ _)
        · exact nodeLE_trans
            (b := { st with edges := listInsert st.edges ("edge-" ++ r.id),
                            nodes := listInsert st.nodes r.sourceNode })
            ⟨(fun _ h => h), subset_listInsert _ _, subset_listInsert _ _⟩ (ih _ _)
        · exact nodeLE_refl
      · simp only [hd, if_false]; exact nodeLE_refl

/-- Number of candidate node ids not yet visited — the quantity that
strictly decreases whenever the flood fill marks a new node. -/
def nlUnvisited (rels : List Relationship) (start : String) (s : NodeLinState) : Nat :=
  ((start :: nodeUniverse rels).toFinset \ s.visited.toFinset).card

theorem toFinset_listInsert (l : List String) (x : String) :
    (listInsert l x).toFinset = insert x l.toFinset := by
  ext a
  simp only [List.mem_toFinset, mem_listInsert, Finset.mem_insert]
  tauto

theorem nlUnvisited_insert (rels : List Relationship) (start : String)
    (s : NodeLinState) (curr : String) (hU : curr ∈ start :: nodeUniverse rels)
    (hc : curr ∉ s.visited) :
    nlUnvisited rels start { s with visited := listInsert s.visited curr } + 1 =
      nlUnvisited rels start s := by
  unfold nlUnvisited
  have hmem : curr ∈ (start :: nodeUniverse rels).toFinset \ s.visited.toFinset := by
    rw [Finset.mem_sdiff, List.mem_toFinset, List.mem_toFinset]
    exact ⟨hU, hc⟩
  have heq : (start :: nodeUniverse rels).toFinset \
      (listInsert s.visited curr).toFinset =
      ((start :: nodeUniverse rels).toFinset \ s.visited.toFinset).erase curr := by
    rw [toFinset_listInsert]
    ext a
    simp only [Finset.mem_sdiff, Finset.mem_erase, Finset.mem_insert]
    tauto
  rw [heq, Finset.card_erase_of_mem hmem]
  have hpos : 0 < ((start :: nodeUniverse rels).toFinset \ s.visited.toFinset).card :=
    Finset.card_pos.mpr ⟨curr, hmem⟩
  omega

theorem nlUnvisited_mono (rels : List Relationship) (start : String)
    {s t : NodeLinState} (h : s.visited ⊆ t.visited) :
    nlUnvisited rels start t ≤ nlUnvisited rels start s := by
  unfold nlUnvisited
  refine Finset.card_le_card ?_
  refine Finset.sdiff_subset_sdiff (Finset.Subset.refl _) ?_
  intro a ha
  rw [List.mem_toFinset] at ha ⊢
  exact h ha

/-- A node `m`'s neighborhood is fully processed in state `t`: for
every direct relationship touching `m`, the synthesized edge id is in
the edge set, and the opposite endpoint is in the node set and
visited. -/
def NbrsDone (rels : List Relationship) (m : String) (t : NodeLinState) : Prop :=
  ∀ r ∈ rels, r.type = "direct" →
    (r.sourceNode = m → ("edge-" ++ r.id) ∈ t.edges ∧ r.targetNode ∈ t.nodes ∧
      r.targetNode ∈ t.visited) ∧
    (r.targetNode = m → ("edge-" ++ r.id) ∈ t.edges ∧ r.sourceNode ∈ t.nodes ∧
      r.sourceNode ∈ t.visited)

theorem nbrsDone_mono {rels : List Relationship} {m : String} {t t' : NodeLinState}
    (h : NbrsDone rels m t) (hle : NodeLE t t') : NbrsDone rels m t' := by
  intro r hr hd
  rcases h r hr hd with ⟨h1, h2⟩
  exact ⟨fun hs => ⟨hle.2.2 (h1 hs).1, hle.2.1 (h1 hs).2.1, hle.1 (h1 hs).2.2⟩,
    fun ht => ⟨hle.2.2 (h2 ht).1, hle.2.1 (h2 ht).2.1, hle.1 (h2 ht).2.2⟩⟩

theorem sourceNode_mem_universe {rels : List Relationship} {r : Relationship}
    (hr : r ∈ rels) (start : String) : r.sourceNode ∈ start :: nodeUniverse rels := by
  refine List.mem_cons.mpr (Or.inr ?_)
  unfold nodeUniverse
  exact List.mem_flatMap.mpr ⟨r, hr, by simp⟩

theorem targetNode_mem_universe {rels : List Relationship} {r : Relationship}
    (hr : r ∈ rels) (start : String) : r.targetNode ∈ start :: nodeUniverse rels := by
  refine List.mem_cons.mpr (Or.inr ?_)
  unfold nodeUniverse
  exact List.mem_flatMap.mpr ⟨r, hr, by simp⟩

theorem nl_call_aux (rels : List Relationship) (start : String) (fuel : Nat)
    (hsat : ∀ (c : String) (s' : NodeLinState), c ∈ start :: nodeUniverse rels →
      nlUnvisited rels start s' + 1 ≤ fuel →
      c ∈ (nlTraverse rels fuel c s').visited ∧
      ∀ m ∈ (nlTraverse rels fuel c s').visited, m ∉ s'.visited →
        NbrsDone rels m (nlTraverse rels fuel c s'))
    (S : List String) (n E N : String) (t : NodeLinState)
    (hn : n ∈ start :: nodeUniverse rels)
    (hb : nlUnvisited rels start t + 1 ≤ fuel)
    (hcl : ∀ m ∈ t.visited, m ∉ S → NbrsDone rels m t) :
    NodeLE t (nlTraverse rels fuel n
      { t with edges := listInsert t.edges E, nodes := listInsert t.nodes N }) ∧
    nlUnvisited rels start (nlTraverse rels fuel n
      { t with edges := listInsert t.edges E, nodes := listInsert t.nodes N }) + 1 ≤ fuel ∧
    (∀ m ∈ (nlTraverse rels fuel n
      { t with edges := listInsert t.edges E, nodes := listInsert t.nodes N }).visited,
      m ∉ S → NbrsDone rels m (nlTraverse rels fuel n
        { t with edges := listInsert t.edges E, nodes := listInsert t.nodes N })) ∧
    E ∈ (nlTraverse rels fuel n
      { t with edges := listInsert t.edges E, nodes := listInsert t.nodes N }).edges ∧
    N ∈ (nlTraverse rels fuel n
      { t with edges := listInsert t.edges E, nodes := listInsert t.nodes N }).nodes ∧
    n ∈ (nlTraverse rels fuel n
      { t with edges := listInsert t.edges E, nodes := listInsert t.nodes N }).visited := by
  have hwb : nlUnvisited rels start
      { t with edges := listInsert t.edges E, nodes := listInsert t.nodes N } + 1 ≤
      fuel := hb
  have h1 := hsat n
    { t with edges := listInsert t.edges E, nodes := listInsert t.nodes N } hn hwb
  have hres_le : NodeLE
      { t with edges := listInsert t.edges E, nodes := listInsert t.nodes N }
      (nlTraverse rels fuel n
        { t with edges := listInsert t.edges E, nodes := listInsert t.nodes N }) :=
    nlTraverse_le rels fuel n _
  have hle : NodeLE t (nlTraverse rels fuel n
      { t with edges := listInsert t.edges E, nodes := listInsert t.nodes N }) :=
    nodeLE_trans
      (b := { t with edges := listInsert t.edges E, nodes := listInsert t.nodes N })
      ⟨(fun _ h => h), subset_listInsert _ _, subset_listInsert _ _⟩ hres_le
  refine ⟨hle, ?_, ?_, ?_, ?_, h1.1⟩
  · have := nlUnvisited_mono rels start (s :=
      { t with edges := listInsert t.edges E, nodes := listInsert t.nodes N })
      hres_le.1
    omega
  · intro m hm hmS
    by_cases hmt : m ∈ t.visited
    · exact nbrsDone_mono (hcl m hmt hmS) hle
    · exact h1.2 m hm hmt
  · exact hres_le.2.2 (self_mem_listInsert _ _)
  · exact hres_le.2.1 (self_mem_listInsert _ _)

/-- Packaged conclusion of the saturation fold lemma: the fold only
grows the state, preserves the fuel bound, keeps every newly visited
node fully processed, and fully processes `curr`'s neighborhood along
the processed relationship list. -/
def NLFoldOut (rels : List Relationship) (start : String) (fuel : Nat) (curr : String)
    (S : List String) (L : List Relationship) (t res : NodeLinState) : Prop :=
  NodeLE t res ∧
  nlUnvisited rels start res + 1 ≤ fuel ∧
  (∀ m ∈ res.visited, m ∉ S → NbrsDone rels m res) ∧
  (∀ r ∈ L, r.type = "direct" →
    (r.sourceNode = curr → ("edge-" ++ r.id) ∈ res.edges ∧ r.targetNode ∈ res.nodes ∧
      r.targetNode ∈ res.visited) ∧
    (r.targetNode = curr → ("edge-" ++ r.id) ∈ res.edges ∧ r.sourceNode ∈ res.nodes ∧
      r.sourceNode ∈ res.visited))

theorem nl_fold_aux (rels : List Relationship) (start : String) (fuel : Nat)
    (curr : String) (S : List String)
    (hsat : ∀ (c : String) (s' : NodeLinState), c ∈ start :: nodeUniverse rels →
      nlUnvisited rels start s' + 1 ≤ fuel →
      c ∈ (nlTraverse rels fuel c s').visited ∧
      ∀ m ∈ (nlTraverse rels fuel c s').visited, m ∉ s'.visited →
        NbrsDone rels m (nlTraverse rels fuel c s')) :
    ∀ (L : List Relationship), (∀ r ∈ L, r ∈ rels) →
      ∀ t : NodeLinState,
        nlUnvisited rels start t + 1 ≤ fuel →
        (∀ m ∈ t.visited, m ∉ S → NbrsDone rels m t) →
        NLFoldOut rels start fuel curr S L t
          (L.foldl
            (fun st r =>
              if r.type == "direct" then
                let st1 : NodeLinState :=
                  if r.sourceNode == curr then
                    nlTraverse rels fuel r.targetNode
                      { st with edges := listInsert st.edges ("edge-" ++ r.id),
                                nodes := listInsert st.nodes r.targetNode }
                  else st
                if r.targetNode == curr then
                  nlTraverse rels fuel r.sourceNode
                    { st1 with edges := listInsert st1.edges ("edge-" ++ r.id),
                               nodes := listInsert st1.nodes r.sourceNode }
                else st1
              else st) t) := by
  intro L
  induction L with
  | nil =>
    intro _ t hb hcl
    exact ⟨nodeLE_refl, hb, hcl, fun r hr => absurd hr (List.not_mem_nil r)⟩
  | cons r L ih =>
    intro hL t hb hcl
    have hrrels : r ∈ rels := hL r (by simp)
    have hLrest : ∀ r' ∈ L, r' ∈ rels := fun r' hr' => hL r' (by simp [hr'])
    simp only [List.foldl_cons]
    by_cases hd : (r.type == "direct") = true
    · simp only [hd, if_true]
      by_cases hsrc : (r.sourceNode == curr) = true <;>
        by_cases htgt : (r.targetNode == curr) = true <;>
          simp only [hsrc, htgt, if_true, if_false]
      · obtain ⟨hle1, hb1, hcl1, hE1, hN1, hv1⟩ :=
          nl_call_aux rels start fuel hsat S r.targetNode ("edge-" ++ r.id)
            r.targetNode t (targetNode_mem_universe hrrels start) hb hcl
        obtain ⟨hle2, hb2, hcl2, hE2, hN2, hv2⟩ :=
          nl_call_aux rels start fuel hsat S r.sourceNode ("edge-" ++ r.id)
            r.sourceNode
            (nlTraverse rels fuel r.targetNode
              { t with edges := listInsert t.edges ("edge-" ++ r.id),
                       nodes := listInsert t.nodes r.targetNode })
            (sourceNode_mem_universe hrrels start) hb1 hcl1
        obtain ⟨hle3, hb3, hcl3, hd3⟩ := ih hLrest _ hb2 hcl2
        refine ⟨nodeLE_trans (nodeLE_trans hle1 hle2) hle3, hb3, hcl3, ?_⟩
        intro r' hr' hdir'
        rcases List.mem_cons.mp hr' with rfl | hr'
        · constructor
          · intro _
            exact ⟨hle3.2.2 hE2, hle3.2.1 (hle2.2.1 hN1), hle3.1 (hle2.1 hv1)⟩
          · intro _
            exact ⟨hle3.2.2 hE2, hle3.2.1 hN2, hle3.1 hv2⟩
        · exact hd3 r' hr' hdir'
      · obtain ⟨hle1, hb1, hcl1, hE1, hN1, hv1⟩ :=
          nl_call_aux rels start fuel hsat S r.targetNode ("edge-" ++ r.id)
            r.targetNode t (targetNode_mem_universe hrrels start) hb hcl
        obtain ⟨hle3, hb3, hcl3, hd3⟩ := ih hLrest _ hb1 hcl1
        refine ⟨nodeLE_trans hle1 hle3, hb3, hcl3, ?_⟩
        intro r' hr' hdir'
        rcases List.mem_cons.mp hr' with rfl | hr'
        · constructor
          · intro _
            exact ⟨hle3.2.2 hE1, hle3.2.1 hN1, hle3.1 hv1⟩
          · intro h
            exact absurd (by simp [h]) htgt
        · exact hd3 r' hr' hdir'
      · obtain ⟨hle1, hb1, hcl1, hE1, hN1, hv1⟩ :=
          nl_call_aux rels start fuel hsat S r.sourceNode ("edge-" ++ r.id)
            r.sourceNode t (sourceNode_mem_universe hrrels start) hb hcl
        obtain ⟨hle3, hb3, hcl3, hd3⟩ := ih hLrest _ hb1 hcl1
        refine ⟨nodeLE_trans hle1 hle3, hb3, hcl3, ?_⟩
        intro r' hr' hdir'
        rcases List.mem_cons.mp hr' with rfl | hr'
        · constructor
          · intro h
            exact absurd (by simp [h]) hsrc
          · intro _
            exact ⟨hle3.2.2 hE1, hle3.2.1 hN1, hle3.1 hv1⟩
        · exact hd3 r' hr' hdir'
      · obtain ⟨hle3, hb3, hcl3, hd3⟩ := ih hLrest t hb hcl
        refine ⟨hle3, hb3, hcl3, ?_⟩
        intro r' hr' hdir'
        rcases List.mem_cons.mp hr' with rfl | hr'
        · constructor
          · intro h
            exact absurd (by simp [h]) hsrc
          · intro h
            exact absurd (by simp [h]) htgt
        · exact hd3 r' hr' hdir'
    · simp only [hd, if_false]
      obtain ⟨hle3, hb3, hcl3, hd3⟩ := ih hLrest t hb hcl
      refine ⟨hle3, hb3, hcl3, ?_⟩
      intro r' hr' hdir'
      rcases List.mem_cons.mp hr' with rfl | hr'
      · exact absurd (by simp [hdir']) hd
      · exact hd3 r' hr' hdir'

theorem nlTraverse_sat (rels : List Relationship) (start : String) :
    ∀ (fuel : Nat) (curr : String) (s : NodeLinState),
      curr ∈ start :: nodeUniverse rels →
      nlUnvisited rels start s + 1 ≤ fuel →
      curr ∈ (nlTraverse rels fuel curr s).visited ∧
      ∀ m ∈ (nlTraverse rels fuel curr s).visited, m ∉ s.visited →
        NbrsDone rels m (nlTraverse rels fuel curr s) := by
  intro fuel
  induction fuel with
  | zero =>
    intro curr s hU hb
    exact absurd hb (by omega)
  | succ fuel ih =>
    intro curr s hU hb
    rw [nlTraverse]
    by_cases hc : curr ∈ s.visited
    · rw [if_pos hc]
      exact ⟨hc, fun m hm hnm => absurd hm hnm⟩
    · rw [if_neg hc]
      have hb1 : nlUnvisited rels start
          { s with visited := listInsert s.visited curr } + 1 ≤ fuel := by
        have h := nlUnvisited_insert rels start s curr hU hc
        omega
      obtain ⟨hle, hbf, hclf, hdf⟩ :=
        nl_fold_aux rels start fuel curr (listInsert s.visited curr) ih rels
          (fun r hr => hr) { s with visited := listInsert s.visited curr } hb1
          (fun m hm hnm => absurd hm hnm)
      constructor
      · exact hle.1 (self_mem_listInsert s.visited curr)
      · intro m hm hms
        by_cases hmc : m = curr
        · subst hmc
          intro r hr hdir
          exact hdf r hr hdir
        · have hnm : m ∉ listInsert s.visited curr := by
            intro hmem
            rcases mem_listInsert.mp hmem with h | h
            · exact hms h
            · exact hmc h
          exact hclf m hm hnm

/-- Soundness invariant of the node-lineage traversal: everything
collected is reachable from `start` in the undirected direct graph. -/
def NLSound (rels : List Relationship) (start : String) (s : NodeLinState) : Prop :=
  (∀ m ∈ s.visited, nlReach rels start m) ∧
  (∀ m ∈ s.nodes, nlReach rels start m) ∧
  (∀ x ∈ s.edges, ∃ r ∈ rels, r.type = "direct" ∧ x = "edge-" ++ r.id ∧
    nlReach rels start r.sourceNode ∧ nlReach rels start r.targetNode)

theorem nlTraverse_sound (rels : List Relationship) (start : String) :
    ∀ (fuel : Nat) (curr : String) (s : NodeLinState),
      nlReach rels start curr → NLSound rels start s →
      NLSound rels start (nlTraverse rels fuel curr s) := by
  intro fuel
  induction fuel with
  | zero => intro curr s _ hs; exact hs
  | succ fuel ih =>
    intro curr s hcr hs
    rw [nlTraverse]
    by_cases hc : curr ∈ s.visited
    · rw [if_pos hc]; exact hs
    · rw [if_neg hc]
      have hs1 : NLSound rels start { s with visited := listInsert s.visited curr } := by
        refine ⟨?_, hs.2.1, hs.2.2⟩
        intro m hm
        rcases mem_listInsert.mp hm with hm | rfl
        · exact hs.1 m hm
        · exact hcr
      refine foldl_pres (P := NLSound rels start) ?_ _ hs1
      intro st r hrrels hst
      by_cases hd : (r.type == "direct") = true
      · simp only [hd, if_true]
        have hdirect : r.type = "direct" := by simpa using hd
        by_cases hsrc : (r.sourceNode == curr) = true <;>
          by_cases htgt : (r.targetNode == curr) = true <;>
            simp only [hsrc, htgt, if_true, if_false]
        · have hseq : r.sourceNode = curr := by simpa using hsrc
          have hrt : nlReach rels start r.targetNode :=
            Relation.ReflTransGen.tail hcr ⟨r, hrrels, hdirect, Or.inl ⟨hseq, rfl⟩⟩
          have hrs : nlReach rels start r.sourceNode := by rw [hseq]; exact hcr
          have h1 := ih r.targetNode
            { st with edges := listInsert st.edges ("edge-" ++ r.id),
                      nodes := listInsert st.nodes r.targetNode } hrt
            (by
              refine ⟨hst.1, ?_, ?_⟩
              · intro m hm
                rcases mem_listInsert.mp hm with hm | rfl
                · exact hst.2.1 m hm
                · exact hrt
              · intro x hx
                rcases mem_listInsert.mp hx with hx | rfl
                · exact hst.2.2 x hx
                · exact ⟨r, hrrels, hdirect, rfl, hrs, hrt⟩)
          refine ih r.sourceNode _ hrs ?_
          refine ⟨h1.1, ?_, ?_⟩
          · intro m hm
            rcases mem_listInsert.mp hm with hm | rfl
            · exact h1.2.1 m hm
            · exact hrs
          · intro x hx
            rcases mem_listInsert.mp hx with hx | rfl
            · exact h1.2.2 x hx
            · exact ⟨r, hrrels, hdirect, rfl, hrs, hrt⟩
        · have hseq : r.sourceNode = curr := by simpa using hsrc
          have hrt : nlReach rels start r.targetNode :=
            Relation.ReflTransGen.tail hcr ⟨r, hrrels, hdirect, Or.inl ⟨hseq, rfl⟩⟩
          have hrs : nlReach rels start r.sourceNode := by rw [hseq]; exact hcr
          refine ih r.targetNode _ hrt ?_
          refine ⟨hst.1, ?_, ?_⟩
          · intro m hm
            rcases mem_listInsert.mp hm with hm | rfl
            · exact hst.2.1 m hm
            · exact hrt
          · intro x hx
            rcases mem_listInsert.mp hx with hx | rfl
            · exact hst.2.2 x hx
            · exact ⟨r, hrrels, hdirect, rfl, hrs, hrt⟩
        · have hteq : r.targetNode = curr := by simpa using htgt
          have hrs : nlReach rels start r.sourceNode :=
            Relation.ReflTransGen.tail hcr ⟨r, hrrels, hdirect, Or.inr ⟨hteq, rfl⟩⟩
          have hrt : nlReach rels start r.targetNode := by rw [hteq]; exact hcr
          refine ih r.sourceNode _ hrs ?_
          refine ⟨hst.1, ?_, ?_⟩
          · intro m hm
            rcases mem_listInsert.mp hm with hm | rfl
            · exact hst.2.1 m hm
            · exact hrs
          · intro x hx
            rcases mem_listInsert.mp hx with hx | rfl
            · exact hst.2.2 x hx
            · exact ⟨r, hrrels, hdirect, rfl, hrs, hrt⟩
        · exact hst
      · simp only [hd, if_false]
        exact hst

/-! ## Claim C8 — collapsed-node lineage is an undirected flood fill -/

/-- Claim C8 (amended): for every *truthy* (non-null, non-empty)
`nodeId`, `findNodeLineage(nodeId, relationships, nodes)` contains
`nodeId` itself in its node set; its node set is exactly the connected
component of `nodeId` in the undirected graph formed by the
`"direct"`-type relationships (`"port"`-type relationships contribute
nothing); and its edge set is exactly the set of synthesized edge ids
of direct relationships touching that component.  The result carries
only nodes and edges — the `NodeLinResult` type has no port field.
(The empty-string id is non-null but falsy and returns the empty
sentinel, so the original "every non-null id" phrasing fails on
it.) -/
theorem findNodeLineage_component (start : String) (rels : List Relationship)
    (nodeList : List Node) (hstart : start ≠ "") :
    start ∈ (findNodeLineage (some start) rels nodeList).nodes ∧
    (∀ m, m ∈ (findNodeLineage (some start) rels nodeList).nodes ↔
      nlReach rels start m) ∧
    (∀ x, x ∈ (findNodeLineage (some start) rels nodeList).edges ↔
      ∃ r ∈ rels, r.type = "direct" ∧ x = "edge-" ++ r.id ∧
        (nlReach rels start r.sourceNode ∨ nlReach rels start r.targetNode)) := by
  have hguard : isFalsyId (some start) = false := by
    simp only [isFalsyId]
    exact beq_eq_false_iff_ne.mpr hstart
  simp only [findNodeLineage, hguard, Bool.false_eq_true, if_false, Option.getD_some]
  have hbound : nlUnvisited rels start ⟨[], [start], []⟩ + 1 ≤
      nodeLineageFuel start rels := by
    unfold nlUnvisited nodeLineageFuel
    have hcard := List.toFinset_card_le (start :: nodeUniverse rels)
    simp only [List.toFinset_nil, Finset.sdiff_empty]
    omega
  obtain ⟨hv0, hclosure⟩ :=
    nlTraverse_sat rels start (nodeLineageFuel start rels) start ⟨[], [start], []⟩
      (by simp) hbound
  have hsound := nlTraverse_sound rels start (nodeLineageFuel start rels) start
    ⟨[], [start], []⟩ Relation.ReflTransGen.refl
    (by
      refine ⟨?_, ?_, ?_⟩
      · intro m hm; exact absurd hm (List.not_mem_nil m)
      · intro m hm
        rcases List.mem_singleton.mp hm with rfl
        exact Relation.ReflTransGen.refl
      · intro x hx; exact absurd hx (List.not_mem_nil x))
  have hreach_vis : ∀ m, Relation.ReflTransGen (nlAdj rels) start m →
      m ∈ (nlTraverse rels (nodeLineageFuel start rels) start
        ⟨[], [start], []⟩).visited := by
    intro m hm
    induction hm with
    | refl => exact hv0
    | tail hab hbc ihm =>
      rcases hbc with ⟨r, hr, hdirect, hcase⟩
      have hnb := hclosure _ ihm (List.not_mem_nil _)
      rcases hcase with ⟨hsb, htc⟩ | ⟨htb, hsc⟩
      · rw [← htc]
        exact ((hnb r hr hdirect).1 hsb).2.2
      · rw [← hsc]
        exact ((hnb r hr hdirect).2 htb).2.2
  have hreach_nodes : ∀ m, Relation.ReflTransGen (nlAdj rels) start m →
      m ∈ (nlTraverse rels (nodeLineageFuel start rels) start
        ⟨[], [start], []⟩).nodes := by
    intro m hm
    rcases Relation.ReflTransGen.cases_tail hm with rfl | ⟨b, hab, hbc⟩
    · exact (nlTraverse_le rels _ _ _).2.1 (by simp)
    · have hbv := hreach_vis b hab
      have hnb := hclosure _ hbv (List.not_mem_nil _)
      rcases hbc with ⟨r, hr, hdirect, hcase⟩
      rcases hcase with ⟨hsb, htc⟩ | ⟨htb, hsc⟩
      · rw [← htc]
        exact ((hnb r hr hdirect).1 hsb).2.1
      · rw [← hsc]
        exact ((hnb r hr hdirect).2 htb).2.1
  refine ⟨?_, ?_, ?_⟩
  · exact (nlTraverse_le rels (nodeLineageFuel start rels) start
      ⟨[], [start], []⟩).2.1 (by simp)
  · intro m
    constructor
    · intro hm
      exact hsound.2.1 m hm
    · intro hm
      exact hreach_nodes m hm
  · intro x
    constructor
    · intro hx
      rcases hsound.2.2 x hx with ⟨r, hr, hdirect, hxeq, hrs, _⟩
      exact ⟨r, hr, hdirect, hxeq, Or.inl hrs⟩
    · rintro ⟨r, hr, hdirect, rfl, hor⟩
      rcases hor with hrs | hrt
      · have hnb := hclosure _ (hreach_vis _ hrs) (List.not_mem_nil _)
        exact ((hnb r hr hdirect).1 rfl).1
      · have hnb := hclosure _ (hreach_vis _ hrt) (List.not_mem_nil _)
        exact ((hnb r hr hdirect).2 rfl).1

/-- Witness for Claim C8's amended theorem at a concrete graph: one
direct relationship `A → B`, started from `A`. -/
theorem findNodeLineage_component_witness :
    ("A" : String) ≠ "" ∧
    ("A" ∈ (findNodeLineage (some "A") [directRel] []).nodes ∧
     (∀ m, m ∈ (findNodeLineage (some "A") [directRel] []).nodes ↔
       nlReach [directRel] "A" m) ∧
     (∀ x, x ∈ (findNodeLineage (some "A") [directRel] []).edges ↔
       ∃ r ∈ [directRel], r.type = "direct" ∧ x = "edge-" ++ r.id ∧
         (nlReach [directRel] "A" r.sourceNode ∨ nlReach [directRel] "A" r.targetNode))) :=
  ⟨by decide, findNodeLineage_component "A" [directRel] [] (by decide)⟩

/-- Counterexample to Claim C8 as stated: the empty string is a
non-null node id, yet `findNodeLineage` returns the empty sentinel for
it, which does not contain the id itself. -/
theorem findNodeLineage_component_cx :
    ¬ ("" ∈ (findNodeLineage (some "") [] []).nodes) := by
  decide
